import Mathlib

set_option autoImplicit false

/-!
Verification development for the MicroSwap repository (src/containers.h).

The file shallowly embeds the three core components of `VMManager`:

* the small-block heap allocator (`heap_alloc`, `heap_free`,
  `ensure_heap_header`, `alloc_heap_page`, `heap_max_payload`),
* the page table / paging engine (`swap_out`, `swap_in`,
  `evict_one_page`, `alloc_ram_buffer_with_eviction`, `alloc_page_ex`,
  `alloc_page_at`, `free_page`, `get_ptr_internal`),
* the `VMPtr` pointer arithmetic (`operator+`, `operator-`, `valid`).

Heap metadata that the C++ code keeps inside the raw page bytes (through
`reinterpret_cast` to `HeapHeader` / `BlockHeader`) is modelled
structurally: an association list from byte offset to the block header
written at that offset, plus the two heap-header fields.  Machine
integers are modelled as `Nat` / `Int`; the access counters and sizes
stay far below their 64-bit bounds in every reachable execution, so no
wrap-around is modelled.
-/

namespace MicroSwap

/-! ## Small-block heap allocator (src/containers.h lines 262 - 550) -/

/-- `HEAP_ALIGN` from the source: 8-byte alignment for payloads. -/
def HEAP_ALIGN : Nat := 8

/-- `HH_SIZE`: `sizeof(HeapHeader)` (= 16) rounded up to `HEAP_ALIGN`. -/
def HH_SIZE : Nat := 16

/-- `BH_SIZE`: `sizeof(BlockHeader)` (= 12) rounded up to `HEAP_ALIGN` (= 16). -/
def BH_SIZE : Nat := 16

/-- `VMManager::align_up`: round up to a multiple of `HEAP_ALIGN`.
The source computes `(v + 7) & ~7`, which for the power of two 8 equals
rounding up by division. -/
def align_up (v : Nat) : Nat := (v + (HEAP_ALIGN - 1)) / HEAP_ALIGN * HEAP_ALIGN

/-- `VMManager::BlockHeader`: payload size, offset of the next free block
(0 if none, meaningful only while free), and the free flag (`flags` bit 0).
The `reserved` padding field carries no information and is dropped. -/
structure BlockHeader where
  size : Nat
  next_free : Nat
  free : Bool
deriving DecidableEq

/-- The block headers written inside one heap page, keyed by byte offset. -/
abbrev Blocks := List (Nat × BlockHeader)

/-- Read the block header stored at offset `k` (the typed view of
`reinterpret_cast<BlockHeader*>(ram_addr + k)` for offsets that carry a
header). -/
def lookupBlk : Blocks → Nat → Option BlockHeader
  | [], _ => none
  | (o, b) :: t, k => if o = k then some b else lookupBlk t k

/-- Store a block header at offset `k`, replacing the header previously
written there if any. -/
def setBlk : Blocks → Nat → BlockHeader → Blocks
  | [], k, nb => [(k, nb)]
  | (o, b) :: t, k, nb => if o = k then (k, nb) :: t else (o, b) :: setBlk t k nb

/-- `VMManager::HeapHeader` (magic/version are modelled by the presence of
the structure itself, see `HSlot.heap`): offset of the first free block
(0 if none) and the approximate total of free payload bytes. -/
structure HeapMeta where
  first_free : Nat
  total_free : Nat
  blocks : Blocks
deriving DecidableEq

/-- Walk of the singly linked free list starting at `off` (0 terminates),
collecting the visited `(offset, header)` pairs.  The fuel bounds the
walk; on the well-formed states considered below the list is acyclic and
`blocks.length + 1` fuel always suffices. -/
def chainGo (bs : Blocks) : Nat → Nat → Option (List (Nat × BlockHeader))
  | 0, off => if off = 0 then some [] else none
  | fuel + 1, off =>
    if off = 0 then some [] else
      match lookupBlk bs off with
      | none => none
      | some b => (chainGo bs fuel b.next_free).map (fun l => (off, b) :: l)

/-- The free list of a heap page, read from `first_free`. -/
def chainOpt (m : HeapMeta) : Option (List (Nat × BlockHeader)) :=
  chainGo m.blocks (m.blocks.length + 1) m.first_free

/-- The fit test of the free-list walk: `(cur->flags & 1) && cur->size >= need`. -/
def fits (need : Nat) (b : BlockHeader) : Bool := b.free && decide (need ≤ b.size)

/-- `prev->next_free = tgt`: rewrite the next-free pointer of the block
header stored at `p` (no-op when no header was written there, which does
not occur on the free-list walks below). -/
def patchPrev (bs : Blocks) (p tgt : Nat) : Blocks :=
  match lookupBlk bs p with
  | some prev => setBlk bs p ⟨prev.size, tgt, prev.free⟩
  | none => bs

/-- The block writes of the split path of `heap_alloc`: the remainder of
the block at `cur_off` becomes a new free block right after the `need`
payload bytes, and the block at `cur_off` is shrunk to `need` used bytes. -/
def splitBlocks (bs : Blocks) (cur_off : Nat) (cur : BlockHeader) (need : Nat) : Blocks :=
  setBlk (setBlk bs (cur_off + BH_SIZE + need)
      ⟨align_up (cur.size - need - BH_SIZE), cur.next_free, true⟩)
    cur_off ⟨need, 0, false⟩

/-- The body of `VMManager::heap_alloc` executed at the first fitting free
block (source lines 379 - 438, duplicated at 456 - 506): split the block
when the remainder can host another block header plus minimal alignment,
otherwise take the whole block; in both cases the taken block leaves the
free list (head pointer or predecessor patched).  Returns
`(payload offset, reserved payload size, updated heap metadata)`. -/
def allocAct (need : Nat) (m : HeapMeta) (prev_off cur_off : Nat) (cur : BlockHeader) :
    Nat × Nat × HeapMeta :=
  if BH_SIZE + HEAP_ALIGN ≤ cur.size - need then
    (cur_off + BH_SIZE, need,
      ⟨if prev_off = 0 then cur_off + BH_SIZE + need else m.first_free,
       m.total_free - (need + BH_SIZE),
       if prev_off = 0 then splitBlocks m.blocks cur_off cur need
       else patchPrev (splitBlocks m.blocks cur_off cur need) prev_off
              (cur_off + BH_SIZE + need)⟩)
  else
    (cur_off + BH_SIZE, cur.size,
      ⟨if prev_off = 0 then cur.next_free else m.first_free,
       if cur.size ≤ m.total_free then m.total_free - cur.size else 0,
       if prev_off = 0 then setBlk m.blocks cur_off ⟨cur.size, 0, false⟩
       else patchPrev (setBlk m.blocks cur_off ⟨cur.size, 0, false⟩) prev_off
              cur.next_free⟩)

/-- The free-list walk of `VMManager::heap_alloc` (`while (cur_off)`),
carrying the previous offset for unlinking.  The source loop has no
bound; the fuel only serves Lean's termination and is chosen large
enough for all acyclic lists. -/
def allocWalk (need : Nat) (m : HeapMeta) : Nat → Nat → Nat → Option (Nat × Nat × HeapMeta)
  | 0, _, _ => none
  | fuel + 1, prev_off, cur_off =>
    if cur_off = 0 then none else
      match lookupBlk m.blocks cur_off with
      | none => none
      | some cur =>
        if fits need cur then some (allocAct need m prev_off cur_off cur)
        else allocWalk need m fuel cur_off cur.next_free

/-- One page's share of `VMManager::heap_alloc`: walk the free list from
`first_free` and allocate at the first fit. -/
def tryAllocInPage (need : Nat) (m : HeapMeta) : Option (Nat × Nat × HeapMeta) :=
  allocWalk need m (m.blocks.length + 1) 0 m.first_free

/-- The page-descriptor fields of `VMPage` that the heap allocator reads
and writes, together with the structural view of the page's heap
metadata.  `heap = none` models page content whose magic/version check
fails (for instance freshly zeroed pages). -/
structure HSlot where
  allocated : Bool
  is_heap : Bool
  zero_filled : Bool
  dirty : Bool
  heap : Option HeapMeta
deriving DecidableEq

/-- A page slot as reset by `begin` / `free_page`. -/
def HSlot.empty : HSlot := ⟨false, false, true, false, none⟩

/-- The manager state seen by the heap allocator: the page size and the
page table.  RAM residency is modelled in the paging component; for the
heap component `swap_in` always succeeds and preserves the heap bytes,
so it is the identity here. -/
structure HState where
  ps : Nat
  slots : List HSlot
deriving DecidableEq

/-- The heap metadata written by `ensure_heap_header` on a fresh page:
one free block at `HH_SIZE` spanning the usable payload area. -/
def freshMeta (ps : Nat) : HeapMeta :=
  ⟨HH_SIZE, align_up (ps - HH_SIZE - BH_SIZE),
    [(HH_SIZE, ⟨align_up (ps - HH_SIZE - BH_SIZE), 0, true⟩)]⟩

/-- Replace slot `i`. -/
def setSlot (s : HState) (i : Nat) (sl : HSlot) : HState := ⟨s.ps, s.slots.set i sl⟩

/-- Install updated heap metadata in slot `i` and mark the page dirty
(`pg.dirty = true` after a successful allocation or free). -/
def setSlotMeta (s : HState) (i : Nat) (m : HeapMeta) : HState :=
  match s.slots[i]? with
  | some sl => setSlot s i { sl with heap := some m, dirty := true }
  | none => s

/-- `VMManager::ensure_heap_header`: validate the page as a heap page,
initializing a new heap header and a single free block when the content
is not a valid heap page (zero-filled, not flagged as heap, or failing
the magic/version check).  The `swap_in` call of the source is the
identity in this structural model. -/
def ensure_heap_header (s : HState) (i : Nat) : Bool × HState :=
  match s.slots[i]? with
  | none => (false, s)
  | some sl =>
    if !sl.allocated then (false, s)
    else if sl.zero_filled || !sl.is_heap || sl.heap.isNone then
      if s.ps ≤ HH_SIZE + BH_SIZE then (false, s)
      else (true, setSlot s i { sl with is_heap := true, zero_filled := false,
                                        dirty := true, heap := some (freshMeta s.ps) })
    else (true, s)

/-- `VMManager::free_page` as used from `alloc_heap_page` (wipe path):
reset the descriptor to unallocated / zero-filled / non-heap. -/
def free_page_h (s : HState) (j : Nat) : HState := setSlot s j HSlot.empty

/-- `VMManager::alloc_heap_page`: allocate the first free page slot with
`zero_on_alloc` (so the content starts zero-filled and fails the heap
magic check), flag it as heap and initialize its header.  RAM buffer
acquisition is modelled as succeeding; the paging component models its
failure modes. -/
def alloc_heap_page (s : HState) : Option Nat × HState :=
  match List.findIdx? (fun sl => !sl.allocated) s.slots with
  | none => (none, s)
  | some j =>
    let s1 := setSlot s j ⟨true, true, true, true, none⟩
    match ensure_heap_header s1 j with
    | (false, s2) => (none, free_page_h s2 j)
    | (true, s2) => (some j, s2)

/-- Step 2 of `VMManager::heap_alloc` (source lines 445 - 511): no fit
found among existing heap pages, allocate a brand-new heap page and
retry there.  On failure the new page is left allocated. -/
def heapAllocNew (need : Nat) (s : HState) : Option (Nat × Nat × Nat) × HState :=
  match alloc_heap_page s with
  | (none, s1) => (none, s1)
  | (some j, s1) =>
    match ensure_heap_header s1 j with
    | (false, s2) => (none, s2)
    | (true, s2) =>
      match (s2.slots[j]?).bind HSlot.heap with
      | none => (none, s2)
      | some m =>
        match tryAllocInPage need m with
        | some (off, sz, m') => (some (j, off, sz), setSlotMeta s2 j m')
        | none => (none, s2)

/-- Step 1 of `VMManager::heap_alloc`: scan the existing heap pages in
index order, validating headers and applying the `total_free` quick
filter, and allocate from the first page whose free list has a fit.
The fuel counts the remaining loop iterations (`page_count - i`). -/
def heapAllocSearch (need : Nat) : Nat → Nat → HState → Option (Nat × Nat × Nat) × HState
  | 0, _, s => heapAllocNew need s
  | fuel + 1, i, s =>
    match s.slots[i]? with
    | none => heapAllocNew need s
    | some sl =>
      if sl.allocated && sl.is_heap then
        match ensure_heap_header s i with
        | (false, s') => heapAllocSearch need fuel (i + 1) s'
        | (true, s') =>
          match (s'.slots[i]?).bind HSlot.heap with
          | none => heapAllocSearch need fuel (i + 1) s'
          | some m =>
            if m.total_free < need then heapAllocSearch need fuel (i + 1) s'
            else
              match tryAllocInPage need m with
              | some (off, sz, m') => (some (i, off, sz), setSlotMeta s' i m')
              | none => heapAllocSearch need fuel (i + 1) s'
      else heapAllocSearch need fuel (i + 1) s

/-- `VMManager::heap_alloc`: allocate a payload block of at least `size`
bytes from any heap page (the alignment argument of the source is
ignored there and dropped here).  Returns
`some (page, payload offset, reserved size)` on success, paired with the
updated manager state. -/
def heap_alloc (s : HState) (size : Nat) : Option (Nat × Nat × Nat) × HState :=
  heapAllocSearch (align_up size) s.slots.length 0 s

/-- `VMManager::heap_free`: free a previously allocated small block by
payload offset; the block is marked free and pushed onto the head of the
page's free list (no coalescing).  Offsets that do not carry a block
header written by the allocator are modelled as a no-op (the source
would read unrelated bytes there; such calls are outside the usage
contract). -/
def heap_free (s : HState) (page_idx : Nat) (payload_off : Nat) : HState :=
  match s.slots[page_idx]? with
  | none => s
  | some sl =>
    if sl.allocated && sl.is_heap then
      match ensure_heap_header s page_idx with
      | (false, s') => s'
      | (true, s') =>
        if payload_off < BH_SIZE then s'
        else
          let hdr_off := payload_off - BH_SIZE
          if s.ps < hdr_off + BH_SIZE then s'
          else
            match (s'.slots[page_idx]?).bind HSlot.heap with
            | none => s'
            | some m =>
              match lookupBlk m.blocks hdr_off with
              | none => s'
              | some bh =>
                if bh.free then s'
                else
                  setSlotMeta s' page_idx
                    ⟨hdr_off, m.total_free + bh.size,
                      setBlk m.blocks hdr_off ⟨bh.size, m.first_free, true⟩⟩
    else s

/-- `VMManager::heap_max_payload`: the largest payload a single block in
one page can carry. -/
def heap_max_payload (ps : Nat) : Nat :=
  if ps ≤ HH_SIZE + BH_SIZE then 0 else ps - HH_SIZE - BH_SIZE

/-- One client call into the small-block heap. -/
inductive HOp where
  | alloc (size : Nat)
  | free (page : Nat) (payload_off : Nat)
deriving DecidableEq

/-- Apply one heap operation, dropping the allocation result. -/
def hstep (s : HState) : HOp → HState
  | .alloc size => (heap_alloc s size).2
  | .free p off => heap_free s p off

/-- Run a sequence of allocate / free calls against the heap. -/
def runH (s : HState) (ops : List HOp) : HState := ops.foldl hstep s

/-! ## Well-formedness of heap pages -/

/-- The offsets carrying block headers. -/
def keys (bs : Blocks) : List Nat := bs.map Prod.fst

/-- A single block header is in bounds and aligned: it lies after the heap
header, its header-plus-payload region stays inside the page, and offset
and size are multiples of the alignment. -/
def blkOk (ps : Nat) (ob : Nat × BlockHeader) : Prop :=
  HH_SIZE ≤ ob.1 ∧ ob.1 + BH_SIZE + ob.2.size ≤ ps ∧
    HEAP_ALIGN ∣ ob.1 ∧ HEAP_ALIGN ∣ ob.2.size

/-- The header-plus-payload extents of two blocks do not overlap. -/
def blkDisj (x y : Nat × BlockHeader) : Prop :=
  x.1 + BH_SIZE + x.2.size ≤ y.1 ∨ y.1 + BH_SIZE + y.2.size ≤ x.1

/-- Structural well-formedness of the blocks of one heap page. -/
def BlocksWF (ps : Nat) (bs : Blocks) : Prop :=
  (keys bs).Nodup ∧ (∀ ob ∈ bs, blkOk ps ob) ∧
    ∀ ob1 ∈ bs, ∀ ob2 ∈ bs, ob1.1 ≠ ob2.1 → blkDisj ob1 ob2

instance (ps : Nat) (bs : Blocks) : Decidable (BlocksWF ps bs) := by
  unfold BlocksWF blkOk blkDisj keys; infer_instance

/-- Well-formedness of the heap view of one page slot. -/
def slotHeapWF (ps : Nat) (sl : HSlot) : Prop :=
  sl.heap.elim True (fun m => BlocksWF ps m.blocks)

instance : (ps : Nat) → (sl : HSlot) → Decidable (slotHeapWF ps sl)
  | _, ⟨_, _, _, _, none⟩ => isTrue True.intro
  | ps, ⟨_, _, _, _, some m⟩ => inferInstanceAs (Decidable (BlocksWF ps m.blocks))

/-- Well-formedness of a heap manager state: the page size is aligned and
large enough for a heap header plus one block header, and every heap
metadata present is structurally well-formed. -/
def StateWF (s : HState) : Prop :=
  HEAP_ALIGN ∣ s.ps ∧ HH_SIZE + BH_SIZE < s.ps ∧ ∀ sl ∈ s.slots, slotHeapWF s.ps sl

instance (s : HState) : Decidable (StateWF s) := by
  unfold StateWF; infer_instance

/-! ## Association-list lemmas for `lookupBlk` / `setBlk` -/

theorem lookupBlk_mem {bs : Blocks} {k : Nat} {b : BlockHeader}
    (h : lookupBlk bs k = some b) : (k, b) ∈ bs := by
  induction bs with
  | nil => simp [lookupBlk] at h
  | cons hd t ih =>
    obtain ⟨o, b'⟩ := hd
    by_cases ho : o = k
    · subst ho
      simp [lookupBlk] at h
      simp [h]
    · simp [lookupBlk, ho] at h
      exact List.mem_cons_of_mem _ (ih h)

theorem mem_setBlk_self {bs : Blocks} {k : Nat} {nb : BlockHeader} :
    (k, nb) ∈ setBlk bs k nb := by
  induction bs with
  | nil => simp [setBlk]
  | cons hd t ih =>
    obtain ⟨o, b⟩ := hd
    by_cases ho : o = k
    · simp [setBlk, ho]
    · simp only [setBlk, if_neg ho]
      exact List.mem_cons_of_mem _ ih

theorem mem_setBlk {bs : Blocks} (hnd : (keys bs).Nodup) {k : Nat} {nb : BlockHeader}
    {ob : Nat × BlockHeader} :
    ob ∈ setBlk bs k nb ↔ ob = (k, nb) ∨ (ob ∈ bs ∧ ob.1 ≠ k) := by
  induction bs with
  | nil =>
    constructor
    · intro hm
      simp [setBlk] at hm
      exact Or.inl hm
    · rintro (rfl | ⟨hm, _⟩)
      · simp [setBlk]
      · simp at hm
  | cons hd t ih =>
    obtain ⟨o, b⟩ := hd
    simp only [keys, List.map_cons, List.nodup_cons] at hnd
    obtain ⟨hno, hnd'⟩ := hnd
    by_cases ho : o = k
    · subst ho
      simp only [setBlk, if_pos rfl]
      constructor
      · intro hm
        rcases List.mem_cons.mp hm with h1 | h1
        · exact Or.inl h1
        · refine Or.inr ⟨List.mem_cons_of_mem _ h1, ?_⟩
          intro hk
          exact hno (hk ▸ List.mem_map_of_mem Prod.fst h1)
      · rintro (rfl | ⟨hm, hne⟩)
        · exact List.mem_cons_self _ _
        · rcases List.mem_cons.mp hm with h1 | h1
          · exact absurd (congrArg Prod.fst h1) hne
          · exact List.mem_cons_of_mem _ h1
    · simp only [setBlk, if_neg ho]
      constructor
      · intro hm
        rcases List.mem_cons.mp hm with h1 | h1
        · subst h1
          exact Or.inr ⟨List.mem_cons_self _ _, ho⟩
        · rcases (ih hnd').mp h1 with h2 | ⟨h2, hne⟩
          · exact Or.inl h2
          · exact Or.inr ⟨List.mem_cons_of_mem _ h2, hne⟩
      · rintro (rfl | ⟨hm, hne⟩)
        · exact List.mem_cons_of_mem _ mem_setBlk_self
        · rcases List.mem_cons.mp hm with h1 | h1
          · subst h1
            exact List.mem_cons_self _ _
          · exact List.mem_cons_of_mem _ ((ih hnd').mpr (Or.inr ⟨h1, hne⟩))

theorem keys_setBlk (bs : Blocks) (k : Nat) (nb : BlockHeader) :
    keys (setBlk bs k nb) = if k ∈ keys bs then keys bs else keys bs ++ [k] := by
  induction bs with
  | nil => simp [setBlk, keys]
  | cons hd t ih =>
    obtain ⟨o, b⟩ := hd
    by_cases ho : o = k
    · subst ho
      simp [setBlk, keys]
    · have hok : (k ∈ keys ((o, b) :: t)) ↔ (k ∈ keys t) := by
        simp only [keys, List.map_cons, List.mem_cons]
        constructor
        · rintro (h1 | h1)
          · exact absurd h1.symm ho
          · exact h1
        · exact Or.inr
      simp only [setBlk, if_neg ho]
      by_cases hk : k ∈ keys t
      · rw [if_pos (hok.mpr hk)]
        simp only [keys, List.map_cons] at *
        rw [ih, if_pos hk]
      · rw [if_neg (fun h => hk (hok.mp h))]
        simp only [keys, List.map_cons] at *
        rw [ih, if_neg hk]
        simp

theorem keys_setBlk_nodup {bs : Blocks} (h : (keys bs).Nodup) (k : Nat) (nb : BlockHeader) :
    (keys (setBlk bs k nb)).Nodup := by
  rw [keys_setBlk]
  by_cases hk : k ∈ keys bs
  · simpa [hk] using h
  · rw [if_neg hk]
    rw [List.nodup_append]
    refine ⟨h, List.nodup_singleton _, ?_⟩
    intro a ha hb
    simp at hb
    subst hb
    exact hk ha

/-! ## Alignment arithmetic -/

theorem align_up_dvd (v : Nat) : HEAP_ALIGN ∣ align_up v := by
  unfold align_up HEAP_ALIGN
  exact Nat.dvd_mul_left _ _

theorem align_up_of_dvd {v : Nat} (h : HEAP_ALIGN ∣ v) : align_up v = v := by
  unfold align_up HEAP_ALIGN at *
  obtain ⟨t, rfl⟩ := h
  omega

theorem le_align_up (v : Nat) : v ≤ align_up v := by
  unfold align_up HEAP_ALIGN
  have h1 := Nat.div_add_mod (v + 7) 8
  have h2 : (v + 7) % 8 < 8 := Nat.mod_lt _ (by norm_num)
  omega

theorem align_up_mul_comm (v : Nat) : align_up v = 8 * ((v + 7) / 8) := by
  unfold align_up HEAP_ALIGN
  omega

/-! ## Preservation of `BlocksWF` by the allocator's block writes -/

theorem BlocksWF_set_shrink {ps : Nat} {bs : Blocks} {k : Nat} {b c : BlockHeader}
    (h : BlocksWF ps bs) (hl : lookupBlk bs k = some b)
    (hsz : c.size ≤ b.size) (hdv : HEAP_ALIGN ∣ c.size) :
    BlocksWF ps (setBlk bs k c) := by
  obtain ⟨hnd, hok, hdisj⟩ := h
  have hkb : (k, b) ∈ bs := lookupBlk_mem hl
  have hbok := hok _ hkb
  refine ⟨keys_setBlk_nodup hnd _ _, ?_, ?_⟩
  · intro ob hm
    rcases (mem_setBlk hnd).mp hm with rfl | ⟨hm', _⟩
    · simp only [blkOk] at hbok ⊢
      exact ⟨hbok.1, by omega, hbok.2.2.1, hdv⟩
    · exact hok _ hm'
  · intro ob1 h1 ob2 h2 hne
    rcases (mem_setBlk hnd).mp h1 with rfl | ⟨h1', hk1⟩ <;>
      rcases (mem_setBlk hnd).mp h2 with rfl | ⟨h2', hk2⟩
    · exact absurd rfl hne
    · have hd := hdisj _ hkb _ h2' hne
      simp only [blkDisj] at hd ⊢
      omega
    · have hd := hdisj _ h1' _ hkb hne
      simp only [blkDisj] at hd ⊢
      omega
    · exact hdisj _ h1' _ h2' hne

theorem patchPrev_WF {ps : Nat} {bs : Blocks} (h : BlocksWF ps bs) (p tgt : Nat) :
    BlocksWF ps (patchPrev bs p tgt) := by
  unfold patchPrev
  cases hl : lookupBlk bs p with
  | none => exact h
  | some prev =>
    exact BlocksWF_set_shrink h hl le_rfl (h.2.1 _ (lookupBlk_mem hl)).2.2.2

theorem not_key_inside {ps : Nat} {bs : Blocks} {k : Nat} {b : BlockHeader}
    (h : BlocksWF ps bs) (hl : lookupBlk bs k = some b) {x : Nat}
    (hx1 : k < x) (hx2 : x < k + BH_SIZE + b.size) : x ∉ keys bs := by
  intro hxk
  obtain ⟨ob, hm, hfst⟩ := List.mem_map.mp hxk
  have hne : ob.1 ≠ (k, b).1 := by
    show ob.1 ≠ k
    omega
  have hd : ob.1 + BH_SIZE + ob.2.size ≤ k ∨ k + BH_SIZE + b.size ≤ ob.1 :=
    h.2.2 _ hm _ (lookupBlk_mem hl) hne
  omega

theorem BlocksWF_split {ps : Nat} {bs : Blocks} {cur_off : Nat} {cur : BlockHeader} {need : Nat}
    (h : BlocksWF ps bs) (hl : lookupBlk bs cur_off = some cur)
    (hneed : need ≤ cur.size) (hrem : BH_SIZE + HEAP_ALIGN ≤ cur.size - need)
    (hdv : HEAP_ALIGN ∣ need) :
    BlocksWF ps (splitBlocks bs cur_off cur need) := by
  obtain ⟨hnd, hok, hdisj⟩ := h
  have hkb : (cur_off, cur) ∈ bs := lookupBlk_mem hl
  have hcok := hok _ hkb
  have hole : HH_SIZE ≤ cur_off := hcok.1
  have hbound : cur_off + BH_SIZE + cur.size ≤ ps := hcok.2.1
  have hodv : HEAP_ALIGN ∣ cur_off := hcok.2.2.1
  have hsdv : HEAP_ALIGN ∣ cur.size := hcok.2.2.2
  have hdv16 : HEAP_ALIGN ∣ BH_SIZE := by decide
  have hau : align_up (cur.size - need - BH_SIZE) = cur.size - need - BH_SIZE :=
    align_up_of_dvd (Nat.dvd_sub' (Nat.dvd_sub' hsdv hdv) hdv16)
  have hfresh : cur_off + BH_SIZE + need ∉ keys bs := by
    refine not_key_inside ⟨hnd, hok, hdisj⟩ hl ?_ ?_
    · simp only [BH_SIZE]
      omega
    · simp only [BH_SIZE, HEAP_ALIGN] at hrem ⊢
      omega
  have hnd1 := keys_setBlk_nodup hnd (cur_off + BH_SIZE + need)
      ⟨align_up (cur.size - need - BH_SIZE), cur.next_free, true⟩
  -- membership characterization of the doubly updated list
  have hmem : ∀ ob, ob ∈ splitBlocks bs cur_off cur need ↔
      ob = (cur_off, (⟨need, 0, false⟩ : BlockHeader)) ∨
      ob = (cur_off + BH_SIZE + need,
            (⟨align_up (cur.size - need - BH_SIZE), cur.next_free, true⟩ : BlockHeader)) ∨
      (ob ∈ bs ∧ ob.1 ≠ cur_off ∧ ob.1 ≠ cur_off + BH_SIZE + need) := by
    intro ob
    unfold splitBlocks
    rw [mem_setBlk hnd1]
    constructor
    · rintro (rfl | ⟨hm1, hne1⟩)
      · exact Or.inl rfl
      · rcases (mem_setBlk hnd).mp hm1 with rfl | ⟨hm2, hne2⟩
        · exact Or.inr (Or.inl rfl)
        · exact Or.inr (Or.inr ⟨hm2, hne1, hne2⟩)
    · rintro (rfl | rfl | ⟨hm2, hne1, hne2⟩)
      · exact Or.inl rfl
      · refine Or.inr ⟨(mem_setBlk hnd).mpr (Or.inl rfl), ?_⟩
        simp only [BH_SIZE, HEAP_ALIGN] at *
        omega
      · exact Or.inr ⟨(mem_setBlk hnd).mpr (Or.inr ⟨hm2, hne2⟩), hne1⟩
  refine ⟨?_, ?_, ?_⟩
  · exact keys_setBlk_nodup hnd1 _ _
  · intro ob hm
    rcases (hmem ob).mp hm with rfl | rfl | ⟨hm', _, _⟩
    · simp only [blkOk] at *
      refine ⟨hole, by omega, hodv, hdv⟩
    · simp only [blkOk] at *
      rw [hau]
      simp only [BH_SIZE, HH_SIZE, HEAP_ALIGN] at *
      omega
    · exact hok _ hm'
  · intro ob1 h1 ob2 h2 hne
    have hget : ∀ ob, ob ∈ bs → ob.1 ≠ cur_off → blkDisj (cur_off, cur) ob := by
      intro ob hm hne'
      exact hdisj _ hkb _ hm (by simpa using fun hh => hne' hh.symm)
    rcases (hmem ob1).mp h1 with rfl | rfl | ⟨h1', h1a, h1b⟩ <;>
      rcases (hmem ob2).mp h2 with rfl | rfl | ⟨h2', h2a, h2b⟩
    · exact absurd rfl hne
    · simp only [blkDisj]
      omega
    · have := hget _ h2' h2a
      simp only [blkDisj] at *
      omega
    · simp only [blkDisj]
      omega
    · exact absurd rfl hne
    · have := hget _ h2' h2a
      simp only [blkDisj] at *
      rw [hau]
      omega
    · have := hget _ h1' h1a
      simp only [blkDisj] at *
      omega
    · have := hget _ h1' h1a
      simp only [blkDisj] at *
      rw [hau]
      omega
    · exact hdisj _ h1' _ h2' hne

theorem fits_iff {need : Nat} {b : BlockHeader} :
    fits need b = true ↔ b.free = true ∧ need ≤ b.size := by
  simp [fits]

theorem allocAct_spec {ps need : Nat} {m : HeapMeta} {prev_off cur_off : Nat}
    {cur : BlockHeader} (h : BlocksWF ps m.blocks)
    (hl : lookupBlk m.blocks cur_off = some cur) (hfit : need ≤ cur.size)
    (hdv : HEAP_ALIGN ∣ need) :
    BlocksWF ps (allocAct need m prev_off cur_off cur).2.2.blocks ∧
      (allocAct need m prev_off cur_off cur).1 = cur_off + BH_SIZE ∧
      need ≤ (allocAct need m prev_off cur_off cur).2.1 ∧
      (allocAct need m prev_off cur_off cur).2.1 ≤ cur.size := by
  have hsdv := (h.2.1 _ (lookupBlk_mem hl)).2.2.2
  by_cases hsp : BH_SIZE + HEAP_ALIGN ≤ cur.size - need
  · by_cases hp : prev_off = 0
    · rw [show allocAct need m prev_off cur_off cur =
          (cur_off + BH_SIZE, need,
            ⟨cur_off + BH_SIZE + need, m.total_free - (need + BH_SIZE),
              splitBlocks m.blocks cur_off cur need⟩) from by
        simp [allocAct, if_pos hsp, hp]]
      exact ⟨BlocksWF_split h hl hfit hsp hdv, rfl, le_rfl, hfit⟩
    · rw [show allocAct need m prev_off cur_off cur =
          (cur_off + BH_SIZE, need,
            ⟨m.first_free, m.total_free - (need + BH_SIZE),
              patchPrev (splitBlocks m.blocks cur_off cur need) prev_off
                (cur_off + BH_SIZE + need)⟩) from by
        simp [allocAct, if_pos hsp, hp]]
      exact ⟨patchPrev_WF (BlocksWF_split h hl hfit hsp hdv) _ _, rfl, le_rfl, hfit⟩
  · by_cases hp : prev_off = 0
    · rw [show allocAct need m prev_off cur_off cur =
          (cur_off + BH_SIZE, cur.size,
            ⟨cur.next_free, if cur.size ≤ m.total_free then m.total_free - cur.size else 0,
              setBlk m.blocks cur_off ⟨cur.size, 0, false⟩⟩) from by
        simp [allocAct, if_neg hsp, hp]]
      exact ⟨BlocksWF_set_shrink (c := ⟨cur.size, 0, false⟩) h hl le_rfl hsdv,
        rfl, hfit, le_rfl⟩
    · rw [show allocAct need m prev_off cur_off cur =
          (cur_off + BH_SIZE, cur.size,
            ⟨m.first_free, if cur.size ≤ m.total_free then m.total_free - cur.size else 0,
              patchPrev (setBlk m.blocks cur_off ⟨cur.size, 0, false⟩) prev_off
                cur.next_free⟩) from by
        simp [allocAct, if_neg hsp, hp]]
      exact ⟨patchPrev_WF (BlocksWF_set_shrink (c := ⟨cur.size, 0, false⟩) h hl le_rfl hsdv)
        _ _, rfl, hfit, le_rfl⟩

theorem allocWalk_props {ps need : Nat} {m : HeapMeta} (h : BlocksWF ps m.blocks)
    (hdv : HEAP_ALIGN ∣ need) :
    ∀ fuel prev_off cur_off {off sz : Nat} {m' : HeapMeta},
      allocWalk need m fuel prev_off cur_off = some (off, sz, m') →
      BlocksWF ps m'.blocks ∧ need ≤ sz ∧
        ∃ co cur, lookupBlk m.blocks co = some cur ∧ off = co + BH_SIZE ∧ sz ≤ cur.size := by
  intro fuel
  induction fuel with
  | zero => intro p c o s mm hw; simp [allocWalk] at hw
  | succ n ih =>
    intro prev_off cur_off off sz m' hw
    unfold allocWalk at hw
    split at hw
    · exact absurd hw (by simp)
    · split at hw
      · exact absurd hw (by simp)
      · rename_i cur heq
        split at hw
        · rename_i hf
          have hfit := (fits_iff.mp hf).2
          have heq2 : allocAct need m prev_off cur_off cur = (off, sz, m') :=
            Option.some.inj hw
          obtain ⟨hwf, hoff, hsz1, hsz2⟩ := allocAct_spec h heq hfit hdv
          rw [heq2] at hwf hoff hsz1 hsz2
          exact ⟨hwf, hsz1, cur_off, cur, heq, hoff, hsz2⟩
        · exact ih _ _ hw

theorem allocWalk_none_of_small {need : Nat} {m : HeapMeta}
    (h : ∀ ob ∈ m.blocks, ob.2.size < need) :
    ∀ fuel prev_off cur_off, allocWalk need m fuel prev_off cur_off = none := by
  intro fuel
  induction fuel with
  | zero => intro _ _; simp [allocWalk]
  | succ n ih =>
    intro prev_off cur_off
    unfold allocWalk
    split
    · rfl
    · split
      · rfl
      · rename_i cur heq
        have hcs : cur.size < need := h _ (lookupBlk_mem heq)
        have hnf : ¬ (fits need cur = true) := by
          rw [fits_iff]
          rintro ⟨_, hle⟩
          omega
        rw [if_neg hnf]
        exact ih _ _

theorem tryAllocInPage_none_of_small {need : Nat} {m : HeapMeta}
    (h : ∀ ob ∈ m.blocks, ob.2.size < need) : tryAllocInPage need m = none :=
  allocWalk_none_of_small h _ _ _

theorem blocks_small_of_WF {ps : Nat} {bs : Blocks} (h : BlocksWF ps bs)
    (hlt : HH_SIZE + BH_SIZE < ps) {need : Nat} (hover : heap_max_payload ps < need) :
    ∀ ob ∈ bs, ob.2.size < need := by
  intro ob hm
  have hok := h.2.1 _ hm
  simp only [blkOk] at hok
  unfold heap_max_payload at hover
  rw [if_neg (by omega)] at hover
  simp only [HH_SIZE, BH_SIZE] at *
  omega

/-! ## List helpers -/

theorem set_eq_self_of_get {α : Type} {l : List α} {i : Nat} {a : α}
    (h : l[i]? = some a) : l.set i a = l := by
  induction l generalizing i with
  | nil => simp at h
  | cons hd t ih =>
    cases i with
    | zero =>
      simp at h
      simp [h]
    | succ n =>
      simp at h
      simp [List.set_cons_succ, ih h]

theorem findIdx?_bounds {α : Type} {p : α → Bool} :
    ∀ {l : List α} {i j : Nat}, List.findIdx? p l i = some j → i ≤ j ∧ j < i + l.length := by
  intro l
  induction l with
  | nil => intro i j h; simp [List.findIdx?] at h
  | cons hd t ih =>
    intro i j h
    rw [List.findIdx?_cons] at h
    by_cases hp : p hd = true
    · rw [if_pos hp] at h
      obtain rfl := Option.some.inj h
      simp
    · rw [if_neg hp] at h
      have := ih h
      simp only [List.length_cons]
      omega

theorem findIdx?_lt_length {α : Type} {p : α → Bool} {l : List α} {j : Nat}
    (h : List.findIdx? p l = some j) : j < l.length := by
  have := findIdx?_bounds h
  omega

/-! ## Preservation of `StateWF` by the heap operations -/

theorem StateWF_setSlot {s : HState} {i : Nat} {sl : HSlot}
    (h : StateWF s) (hsl : slotHeapWF s.ps sl) : StateWF (setSlot s i sl) := by
  refine ⟨h.1, h.2.1, ?_⟩
  intro sl' hm
  rcases List.mem_or_eq_of_mem_set hm with hm' | rfl
  · exact h.2.2 _ hm'
  · exact hsl

theorem StateWF_setSlotMeta {s : HState} {i : Nat} {m : HeapMeta}
    (h : StateWF s) (hbw : BlocksWF s.ps m.blocks) : StateWF (setSlotMeta s i m) := by
  unfold setSlotMeta
  cases hg : s.slots[i]? with
  | none => exact h
  | some sl => exact StateWF_setSlot h hbw

theorem setSlotMeta_ps (s : HState) (i : Nat) (m : HeapMeta) :
    (setSlotMeta s i m).ps = s.ps := by
  unfold setSlotMeta
  cases hg : s.slots[i]? <;> rfl

theorem blocksWF_of_get {s : HState} {i : Nat} {sl : HSlot} {m : HeapMeta}
    (h : StateWF s) (hg : s.slots[i]? = some sl) (hh : sl.heap = some m) :
    BlocksWF s.ps m.blocks := by
  have hw := h.2.2 _ (List.getElem?_mem hg)
  unfold slotHeapWF at hw
  rw [hh] at hw
  exact hw

theorem freshMeta_WF {ps : Nat} (h8 : HEAP_ALIGN ∣ ps) (hlt : HH_SIZE + BH_SIZE < ps) :
    BlocksWF ps (freshMeta ps).blocks := by
  have hdv : HEAP_ALIGN ∣ ps - HH_SIZE - BH_SIZE :=
    Nat.dvd_sub' (Nat.dvd_sub' h8 (by decide)) (by decide)
  have hau := align_up_of_dvd hdv
  refine ⟨by simp [freshMeta, keys], ?_, ?_⟩
  · intro ob hm
    simp only [freshMeta, List.mem_singleton] at hm
    subst hm
    refine ⟨le_rfl, ?_, (by decide : HEAP_ALIGN ∣ HH_SIZE), align_up_dvd _⟩
    show HH_SIZE + BH_SIZE + align_up (ps - HH_SIZE - BH_SIZE) ≤ ps
    rw [hau]
    simp only [HH_SIZE, BH_SIZE] at *
    omega
  · intro ob1 h1 ob2 h2 hne
    simp only [freshMeta, List.mem_singleton] at h1 h2
    subst h1
    subst h2
    exact absurd rfl hne

theorem StateWF_ensure {s : HState} {i : Nat} (h : StateWF s) :
    StateWF (ensure_heap_header s i).2 := by
  unfold ensure_heap_header
  split
  · exact h
  · split
    · exact h
    · split
      · split
        · exact h
        · exact StateWF_setSlot h (freshMeta_WF h.1 h.2.1)
      · exact h

theorem ensure_ps (s : HState) (i : Nat) : (ensure_heap_header s i).2.ps = s.ps := by
  unfold ensure_heap_header
  split
  · rfl
  · split
    · rfl
    · split
      · split
        · rfl
        · rfl
      · rfl

theorem ensure_allocated_map (s : HState) (i : Nat) :
    (ensure_heap_header s i).2.slots.map HSlot.allocated = s.slots.map HSlot.allocated := by
  unfold ensure_heap_header
  split
  · rfl
  · rename_i sl hg
    split
    · rfl
    · split
      · split
        · rfl
        · show ((s.slots.set i _).map HSlot.allocated) = _
          rw [List.map_set]
          refine set_eq_self_of_get ?_
          rw [List.getElem?_map, hg]
          rfl
      · rfl

theorem StateWF_free_page_h {s : HState} {j : Nat} (h : StateWF s) :
    StateWF (free_page_h s j) :=
  StateWF_setSlot h True.intro

theorem ensure_heap_header_valid {s : HState} {i : Nat} {sl : HSlot} {m : HeapMeta}
    (hg : s.slots[i]? = some sl) (ha : sl.allocated = true) (hz : sl.zero_filled = false)
    (hi : sl.is_heap = true) (hh : sl.heap = some m) :
    ensure_heap_header s i = (true, s) := by
  unfold ensure_heap_header
  rw [hg]
  simp [ha, hz, hi, hh]

theorem alloc_heap_page_eq_none {s : HState}
    (hf : List.findIdx? (fun sl => !sl.allocated) s.slots = none) :
    alloc_heap_page s = (none, s) := by
  unfold alloc_heap_page
  rw [hf]

theorem alloc_heap_page_eq_some {s : HState} {j : Nat}
    (hps : ¬ s.ps ≤ HH_SIZE + BH_SIZE)
    (hf : List.findIdx? (fun sl => !sl.allocated) s.slots = some j) :
    alloc_heap_page s =
      (some j, setSlot s j ⟨true, true, false, true, some (freshMeta s.ps)⟩) := by
  have hj : j < s.slots.length := findIdx?_lt_length hf
  unfold alloc_heap_page
  rw [hf]
  have hg : (setSlot s j ⟨true, true, true, true, none⟩).slots[j]?
      = some ⟨true, true, true, true, none⟩ := by
    show (s.slots.set j _)[j]? = _
    rw [List.getElem?_set_self' ]
    simp [hj]
  have he : ensure_heap_header (setSlot s j ⟨true, true, true, true, none⟩) j
      = (true, setSlot s j ⟨true, true, false, true, some (freshMeta s.ps)⟩) := by
    unfold ensure_heap_header
    rw [hg]
    dsimp only [setSlot]
    rw [if_neg (by decide), if_pos (by decide), if_neg hps]
    rw [List.set_set]
  dsimp only
  rw [he]

theorem StateWF_alloc_heap_page {s : HState} (h : StateWF s) :
    StateWF (alloc_heap_page s).2 ∧ (alloc_heap_page s).2.ps = s.ps := by
  cases hf : List.findIdx? (fun sl => !sl.allocated) s.slots with
  | none => rw [alloc_heap_page_eq_none hf]; exact ⟨h, rfl⟩
  | some j =>
    have hps : ¬ s.ps ≤ HH_SIZE + BH_SIZE := by
      have := h.2.1
      omega
    rw [alloc_heap_page_eq_some hps hf]
    exact ⟨StateWF_setSlot h (freshMeta_WF h.1 h.2.1), rfl⟩

/-- What a successful allocation result must satisfy relative to the
request: the reserved size covers the need, the payload plus its size
fits in the page, and the payload offset is aligned. -/
def allocOutOk (need ps : Nat) : Option (Nat × Nat × Nat) → Prop
  | none => True
  | some (_, off, sz) => need ≤ sz ∧ off + sz ≤ ps ∧ HEAP_ALIGN ∣ off

theorem tryAlloc_success_props {need ps off sz : Nat} {m m' : HeapMeta}
    (hB : BlocksWF ps m.blocks) (hdv : HEAP_ALIGN ∣ need)
    (hT : tryAllocInPage need m = some (off, sz, m')) :
    BlocksWF ps m'.blocks ∧ need ≤ sz ∧ off + sz ≤ ps ∧ HEAP_ALIGN ∣ off := by
  unfold tryAllocInPage at hT
  obtain ⟨hwf, hsz, co, cur, hlk, hoe, hsc⟩ := allocWalk_props hB hdv _ _ _ hT
  have hok := hB.2.1 _ (lookupBlk_mem hlk)
  have h1 : HH_SIZE ≤ co := hok.1
  have h2 : co + BH_SIZE + cur.size ≤ ps := hok.2.1
  have h3 : HEAP_ALIGN ∣ co := hok.2.2.1
  subst hoe
  refine ⟨hwf, hsz, by omega, ?_⟩
  simp only [HEAP_ALIGN, BH_SIZE, HH_SIZE] at *
  omega

theorem heapAllocNew_inv {need : Nat} (hdv : HEAP_ALIGN ∣ need) {s : HState}
    (h : StateWF s) :
    StateWF (heapAllocNew need s).2 ∧ (heapAllocNew need s).2.ps = s.ps ∧
      allocOutOk need s.ps (heapAllocNew need s).1 := by
  unfold heapAllocNew
  rcases hA : alloc_heap_page s with ⟨oj, s1⟩
  obtain ⟨hW1, hp1⟩ : StateWF s1 ∧ s1.ps = s.ps := by
    have := StateWF_alloc_heap_page h
    rw [hA] at this
    exact this
  cases oj with
  | none => exact ⟨hW1, hp1, trivial⟩
  | some j =>
    dsimp only
    rcases hE : ensure_heap_header s1 j with ⟨b, s2⟩
    obtain ⟨hW2, hp2⟩ : StateWF s2 ∧ s2.ps = s1.ps := by
      have h1 := StateWF_ensure (s := s1) (i := j) hW1
      have h2 := ensure_ps s1 j
      rw [hE] at h1 h2
      exact ⟨h1, h2⟩
    cases b with
    | false => exact ⟨hW2, by rw [hp2, hp1], trivial⟩
    | true =>
      dsimp only
      cases hM : (s2.slots[j]?).bind HSlot.heap with
      | none => exact ⟨hW2, by rw [hp2, hp1], trivial⟩
      | some m =>
        dsimp only
        have hB : BlocksWF s2.ps m.blocks := by
          cases hg : s2.slots[j]? with
          | none => rw [hg] at hM; simp at hM
          | some sl =>
            rw [hg] at hM
            exact blocksWF_of_get hW2 hg hM
        cases hT : tryAllocInPage need m with
        | none => exact ⟨hW2, by rw [hp2, hp1], trivial⟩
        | some r =>
          obtain ⟨off, sz, m'⟩ := r
          obtain ⟨hwf', hsz, hfit, hdvo⟩ := tryAlloc_success_props hB hdv hT
          refine ⟨StateWF_setSlotMeta hW2 hwf', ?_, ?_⟩
          · rw [setSlotMeta_ps, hp2, hp1]
          · show need ≤ sz ∧ off + sz ≤ s.ps ∧ HEAP_ALIGN ∣ off
            rw [hp2, hp1] at hfit
            exact ⟨hsz, hfit, hdvo⟩

theorem heapAllocSearch_inv {need : Nat} (hdv : HEAP_ALIGN ∣ need) :
    ∀ (fuel i : Nat) (s : HState), StateWF s →
      StateWF (heapAllocSearch need fuel i s).2 ∧
        (heapAllocSearch need fuel i s).2.ps = s.ps ∧
        allocOutOk need s.ps (heapAllocSearch need fuel i s).1 := by
  intro fuel
  induction fuel with
  | zero => intro i s h; exact heapAllocNew_inv hdv h
  | succ n ih =>
    intro i s h
    unfold heapAllocSearch
    cases hg : s.slots[i]? with
    | none => exact heapAllocNew_inv hdv h
    | some sl =>
      dsimp only
      by_cases hah : (sl.allocated && sl.is_heap) = true
      · rw [if_pos hah]
        rcases hE : ensure_heap_header s i with ⟨b, s'⟩
        obtain ⟨hW', hp'⟩ : StateWF s' ∧ s'.ps = s.ps := by
          have h1 := StateWF_ensure (s := s) (i := i) h
          have h2 := ensure_ps s i
          rw [hE] at h1 h2
          exact ⟨h1, h2⟩
        cases b with
        | false =>
          obtain ⟨r1, r2, r3⟩ := ih (i + 1) s' hW'
          exact ⟨r1, by rw [r2, hp'], by rw [← hp']; exact r3⟩
        | true =>
          dsimp only
          cases hM : (s'.slots[i]?).bind HSlot.heap with
          | none =>
            obtain ⟨r1, r2, r3⟩ := ih (i + 1) s' hW'
            exact ⟨r1, by rw [r2, hp'], by rw [← hp']; exact r3⟩
          | some m =>
            dsimp only
            have hB : BlocksWF s'.ps m.blocks := by
              cases hg' : s'.slots[i]? with
              | none => rw [hg'] at hM; simp at hM
              | some sl' =>
                rw [hg'] at hM
                exact blocksWF_of_get hW' hg' hM
            by_cases hq : m.total_free < need
            · rw [if_pos hq]
              obtain ⟨r1, r2, r3⟩ := ih (i + 1) s' hW'
              exact ⟨r1, by rw [r2, hp'], by rw [← hp']; exact r3⟩
            · rw [if_neg hq]
              cases hT : tryAllocInPage need m with
              | none =>
                obtain ⟨r1, r2, r3⟩ := ih (i + 1) s' hW'
                exact ⟨r1, by rw [r2, hp'], by rw [← hp']; exact r3⟩
              | some r =>
                obtain ⟨off, sz, m'⟩ := r
                obtain ⟨hwf', hsz, hfit, hdvo⟩ := tryAlloc_success_props hB hdv hT
                refine ⟨StateWF_setSlotMeta hW' hwf', ?_, ?_⟩
                · rw [setSlotMeta_ps, hp']
                · show need ≤ sz ∧ off + sz ≤ s.ps ∧ HEAP_ALIGN ∣ off
                  rw [hp'] at hfit
                  exact ⟨hsz, hfit, hdvo⟩
      · rw [if_neg hah]
        exact ih (i + 1) s h

theorem heap_alloc_inv {s : HState} (size : Nat) (h : StateWF s) :
    StateWF (heap_alloc s size).2 ∧ (heap_alloc s size).2.ps = s.ps ∧
      allocOutOk (align_up size) s.ps (heap_alloc s size).1 :=
  heapAllocSearch_inv (align_up_dvd size) _ _ _ h

theorem heap_free_inv {s : HState} (p o : Nat) (h : StateWF s) :
    StateWF (heap_free s p o) ∧ (heap_free s p o).ps = s.ps := by
  unfold heap_free
  cases hg : s.slots[p]? with
  | none => exact ⟨h, rfl⟩
  | some sl =>
    dsimp only
    by_cases hah : (sl.allocated && sl.is_heap) = true
    · rw [if_pos hah]
      rcases hE : ensure_heap_header s p with ⟨b, s'⟩
      obtain ⟨hW', hp'⟩ : StateWF s' ∧ s'.ps = s.ps := by
        have h1 := StateWF_ensure (s := s) (i := p) h
        have h2 := ensure_ps s p
        rw [hE] at h1 h2
        exact ⟨h1, h2⟩
      cases b with
      | false => exact ⟨hW', hp'⟩
      | true =>
        dsimp only
        by_cases ho : o < BH_SIZE
        · rw [if_pos ho]
          exact ⟨hW', hp'⟩
        · rw [if_neg ho]
          by_cases hb : s.ps < o - BH_SIZE + BH_SIZE
          · rw [if_pos hb]
            exact ⟨hW', hp'⟩
          · rw [if_neg hb]
            cases hM : (s'.slots[p]?).bind HSlot.heap with
            | none => exact ⟨hW', hp'⟩
            | some m =>
              dsimp only
              have hB : BlocksWF s'.ps m.blocks := by
                cases hg' : s'.slots[p]? with
                | none => rw [hg'] at hM; simp at hM
                | some sl' =>
                  rw [hg'] at hM
                  exact blocksWF_of_get hW' hg' hM
              cases hL : lookupBlk m.blocks (o - BH_SIZE) with
              | none => exact ⟨hW', hp'⟩
              | some bh =>
                dsimp only
                by_cases hfr : bh.free = true
                · rw [if_pos hfr]
                  exact ⟨hW', hp'⟩
                · rw [if_neg hfr]
                  have hBW := BlocksWF_set_shrink (c := ⟨bh.size, m.first_free, true⟩)
                    hB hL le_rfl (hB.2.1 _ (lookupBlk_mem hL)).2.2.2
                  exact ⟨StateWF_setSlotMeta hW' hBW, by rw [setSlotMeta_ps, hp']⟩
    · rw [if_neg hah]
      exact ⟨h, rfl⟩

theorem runH_inv {ops : List HOp} {s : HState} (h : StateWF s) :
    StateWF (runH s ops) ∧ (runH s ops).ps = s.ps := by
  induction ops generalizing s with
  | nil => exact ⟨h, rfl⟩
  | cons op t ih =>
    show StateWF (runH (hstep s op) t) ∧ (runH (hstep s op) t).ps = s.ps
    cases op with
    | alloc size =>
      obtain ⟨h1, h2, _⟩ := heap_alloc_inv size h
      obtain ⟨r1, r2⟩ := ih h1
      exact ⟨r1, r2.trans h2⟩
    | free p o =>
      obtain ⟨h1, h2⟩ := heap_free_inv p o h
      obtain ⟨r1, r2⟩ := ih h1
      exact ⟨r1, r2.trans h2⟩

/-! ## Failure of oversized requests -/

theorem heapAllocNew_oversized {need : Nat} {s : HState} (h : StateWF s)
    (hover : heap_max_payload s.ps < need) :
    (heapAllocNew need s).1 = none ∧
      ∀ j, List.findIdx? (fun sl => !sl.allocated) s.slots = some j →
        (heapAllocNew need s).2.slots[j]? =
          some ⟨true, true, false, true, some (freshMeta s.ps)⟩ := by
  have hps : ¬ s.ps ≤ HH_SIZE + BH_SIZE := by
    have := h.2.1
    omega
  cases hf : List.findIdx? (fun sl => !sl.allocated) s.slots with
  | none =>
    unfold heapAllocNew
    rw [alloc_heap_page_eq_none hf]
    exact ⟨rfl, fun j hj => by cases hj⟩
  | some j =>
    have hj : j < s.slots.length := findIdx?_lt_length hf
    unfold heapAllocNew
    rw [alloc_heap_page_eq_some hps hf]
    have hg2 : (setSlot s j ⟨true, true, false, true, some (freshMeta s.ps)⟩).slots[j]?
        = some ⟨true, true, false, true, some (freshMeta s.ps)⟩ := by
      show (s.slots.set j _)[j]? = _
      rw [List.getElem?_set_self']
      simp [hj]
    have hE := ensure_heap_header_valid hg2 rfl rfl rfl rfl
    dsimp only
    rw [hE]
    dsimp only
    rw [hg2]
    rw [Option.some_bind]
    dsimp only
    have hT : tryAllocInPage need (freshMeta s.ps) = none := by
      refine tryAllocInPage_none_of_small ?_
      intro ob hm
      simp only [freshMeta, List.mem_singleton] at hm
      subst hm
      show align_up (s.ps - HH_SIZE - BH_SIZE) < need
      have hdv : HEAP_ALIGN ∣ s.ps - HH_SIZE - BH_SIZE :=
        Nat.dvd_sub' (Nat.dvd_sub' h.1 (by decide)) (by decide)
      rw [align_up_of_dvd hdv]
      unfold heap_max_payload at hover
      rw [if_neg hps] at hover
      exact hover
    rw [hT]
    refine ⟨rfl, ?_⟩
    intro j' hj'
    obtain rfl := Option.some.inj hj'
    exact hg2

theorem findIdx_allocated_congr {l1 l2 : List HSlot}
    (h : l1.map HSlot.allocated = l2.map HSlot.allocated) :
    List.findIdx? (fun sl => !sl.allocated) l1 =
      List.findIdx? (fun sl => !sl.allocated) l2 := by
  have h1 : List.findIdx? (fun b => !b) (l1.map HSlot.allocated)
      = List.findIdx? ((fun b => !b) ∘ HSlot.allocated) l1 := List.findIdx?_map _ _
  have h2 : List.findIdx? (fun b => !b) (l2.map HSlot.allocated)
      = List.findIdx? ((fun b => !b) ∘ HSlot.allocated) l2 := List.findIdx?_map _ _
  rw [h] at h1
  exact h1.symm.trans h2

theorem heapAllocSearch_oversized {need : Nat} :
    ∀ (fuel i : Nat) (s : HState), StateWF s → heap_max_payload s.ps < need →
      ∃ st, heapAllocSearch need fuel i s = heapAllocNew need st ∧ StateWF st ∧
        st.ps = s.ps ∧ st.slots.map HSlot.allocated = s.slots.map HSlot.allocated := by
  intro fuel
  induction fuel with
  | zero => intro i s h hov; exact ⟨s, rfl, h, rfl, rfl⟩
  | succ n ih =>
    intro i s h hov
    unfold heapAllocSearch
    cases hg : s.slots[i]? with
    | none => exact ⟨s, rfl, h, rfl, rfl⟩
    | some sl =>
      dsimp only
      by_cases hah : (sl.allocated && sl.is_heap) = true
      · rw [if_pos hah]
        rcases hE : ensure_heap_header s i with ⟨b, s'⟩
        obtain ⟨hW', hp', hm'⟩ : StateWF s' ∧ s'.ps = s.ps ∧
            s'.slots.map HSlot.allocated = s.slots.map HSlot.allocated := by
          have h1 := StateWF_ensure (s := s) (i := i) h
          have h2 := ensure_ps s i
          have h3 := ensure_allocated_map s i
          rw [hE] at h1 h2 h3
          exact ⟨h1, h2, h3⟩
        have hov' : heap_max_payload s'.ps < need := by rw [hp']; exact hov
        cases b with
        | false =>
          obtain ⟨st, r1, r2, r3, r4⟩ := ih (i + 1) s' hW' hov'
          exact ⟨st, r1, r2, r3.trans hp', r4.trans hm'⟩
        | true =>
          dsimp only
          cases hM : (s'.slots[i]?).bind HSlot.heap with
          | none =>
            obtain ⟨st, r1, r2, r3, r4⟩ := ih (i + 1) s' hW' hov'
            exact ⟨st, r1, r2, r3.trans hp', r4.trans hm'⟩
          | some m =>
            dsimp only
            have hB : BlocksWF s'.ps m.blocks := by
              cases hg' : s'.slots[i]? with
              | none => rw [hg'] at hM; simp at hM
              | some sl' =>
                rw [hg'] at hM
                exact blocksWF_of_get hW' hg' hM
            by_cases hq : m.total_free < need
            · rw [if_pos hq]
              obtain ⟨st, r1, r2, r3, r4⟩ := ih (i + 1) s' hW' hov'
              exact ⟨st, r1, r2, r3.trans hp', r4.trans hm'⟩
            · rw [if_neg hq]
              have hT : tryAllocInPage need m = none :=
                tryAllocInPage_none_of_small (blocks_small_of_WF hB hW'.2.1 hov')
              rw [hT]
              obtain ⟨st, r1, r2, r3, r4⟩ := ih (i + 1) s' hW' hov'
              exact ⟨st, r1, r2, r3.trans hp', r4.trans hm'⟩
      · rw [if_neg hah]
        exact ih (i + 1) s h hov

/-! ## Live-block payload disjointness -/

/-- The payload byte ranges of two blocks do not overlap. -/
def payloadDisj (x y : Nat × BlockHeader) : Prop :=
  x.1 + BH_SIZE + x.2.size ≤ y.1 + BH_SIZE ∨ y.1 + BH_SIZE + y.2.size ≤ x.1 + BH_SIZE

instance (x y : Nat × BlockHeader) : Decidable (payloadDisj x y) := by
  unfold payloadDisj; infer_instance

/-- In one heap page, the payload ranges of any two distinct live
(non-free) blocks are disjoint. -/
def slotNoOverlap (sl : HSlot) : Prop :=
  sl.heap.elim True (fun m =>
    ∀ ob1 ∈ m.blocks, ∀ ob2 ∈ m.blocks, ob1.1 ≠ ob2.1 →
      ob1.2.free = false → ob2.2.free = false → payloadDisj ob1 ob2)

instance : (sl : HSlot) → Decidable (slotNoOverlap sl)
  | ⟨_, _, _, _, none⟩ => isTrue True.intro
  | ⟨_, _, _, _, some m⟩ =>
    inferInstanceAs (Decidable (∀ ob1 ∈ m.blocks, ∀ ob2 ∈ m.blocks, ob1.1 ≠ ob2.1 →
      ob1.2.free = false → ob2.2.free = false → payloadDisj ob1 ob2))

/-- No two live small blocks of the heap overlap, on any page. -/
def NoOverlap (s : HState) : Prop := ∀ sl ∈ s.slots, slotNoOverlap sl

instance (s : HState) : Decidable (NoOverlap s) := by
  unfold NoOverlap; infer_instance

theorem noOverlap_of_StateWF {s : HState} (h : StateWF s) : NoOverlap s := by
  intro sl hm
  have hw := h.2.2 _ hm
  unfold slotHeapWF at hw
  unfold slotNoOverlap
  cases hh : sl.heap with
  | none => exact True.intro
  | some m =>
    rw [hh] at hw
    intro ob1 h1 ob2 h2 hne f1 f2
    have hd := hw.2.2 _ h1 _ h2 hne
    unfold payloadDisj
    unfold blkDisj at hd
    omega

/-! ## Claim theorems: heap allocator -/

/-- Claim C3: for every sequence of small-block allocate and free calls,
at no point do the payload byte ranges of two live (non-free) blocks
overlap, and every payload offset `off` returned for a request of size
`size` satisfies `off + size ≤ page_size`. -/
theorem heap_live_blocks_no_overlap (s0 : HState) (ops : List HOp) (hWF : StateWF s0) :
    NoOverlap (runH s0 ops) ∧
      ∀ size pg off sz s1,
        heap_alloc (runH s0 ops) size = (some (pg, off, sz), s1) →
        off + size ≤ s0.ps := by
  obtain ⟨hW, hps⟩ := runH_inv hWF
  refine ⟨noOverlap_of_StateWF hW, ?_⟩
  intro size pg off sz s1 hx
  obtain ⟨_, _, hout⟩ := heap_alloc_inv size hW
  rw [hx] at hout
  have h1 : align_up size ≤ sz := hout.1
  have h2 : off + sz ≤ (runH s0 ops).ps := hout.2.1
  have h3 := le_align_up size
  rw [hps] at h2
  omega

/-- Witness for the C3 theorem at a concrete initial state and
operation sequence. -/
theorem heap_live_blocks_no_overlap_witness :
    StateWF (⟨64, [HSlot.empty, HSlot.empty]⟩ : HState) ∧
      NoOverlap (runH ⟨64, [HSlot.empty, HSlot.empty]⟩
        [HOp.alloc 8, HOp.alloc 4, HOp.free 0 32]) :=
  ⟨by decide, (heap_live_blocks_no_overlap ⟨64, [HSlot.empty, HSlot.empty]⟩
    [HOp.alloc 8, HOp.alloc 4, HOp.free 0 32] (by decide)).1⟩

/-- Claim C8: every payload offset returned by a small-block heap
allocation, in every reachable heap state, is a multiple of the
configured alignment (`HEAP_ALIGN` = 8). -/
theorem heap_alloc_payload_aligned (s0 : HState) (ops : List HOp)
    (size pg off sz : Nat) (s1 : HState) (hWF : StateWF s0)
    (hx : heap_alloc (runH s0 ops) size = (some (pg, off, sz), s1)) :
    HEAP_ALIGN ∣ off := by
  obtain ⟨hW, _⟩ := runH_inv hWF
  obtain ⟨_, _, hout⟩ := heap_alloc_inv size hW
  rw [hx] at hout
  exact hout.2.2

/-- Witness for the C8 theorem at a concrete allocation. -/
theorem heap_alloc_payload_aligned_witness :
    StateWF (⟨64, [HSlot.empty]⟩ : HState) ∧ HEAP_ALIGN ∣ 32 :=
  ⟨by decide, heap_alloc_payload_aligned ⟨64, [HSlot.empty]⟩ [] 4 0 32 8
    (heap_alloc (runH ⟨64, [HSlot.empty]⟩ []) 4).2 (by decide) (by decide)⟩

/-- Claim C6: a small-block request whose aligned size exceeds one
page's usable capacity (`heap_max_payload`) deterministically fails,
even when an empty heap page is available: the allocator never returns
a truncated allocation. -/
theorem heap_alloc_oversized_fails (s : HState) (size : Nat) (hWF : StateWF s)
    (hover : heap_max_payload s.ps < align_up size) :
    (heap_alloc s size).1 = none := by
  unfold heap_alloc
  obtain ⟨st, r1, r2, r3, _⟩ := heapAllocSearch_oversized s.slots.length 0 s hWF hover
  rw [r1]
  exact (heapAllocNew_oversized r2 (by rw [r3]; exact hover)).1

/-- Witness for the C6 theorem: a 33-byte request on 64-byte pages
(usable capacity 32) fails. -/
theorem heap_alloc_oversized_fails_witness :
    StateWF (⟨64, [HSlot.empty]⟩ : HState) ∧ heap_max_payload 64 < align_up 33 ∧
      (heap_alloc ⟨64, [HSlot.empty]⟩ 33).1 = none :=
  ⟨by decide, by decide,
    heap_alloc_oversized_fails ⟨64, [HSlot.empty]⟩ 33 (by decide) (by decide)⟩

/-- Claim C10: when no existing heap page can satisfy the request, the
allocator allocates and initializes a brand-new heap page; if the
aligned request does not fit the fresh page's single free block, it
returns failure while the new heap page remains allocated in the page
table (with a freshly initialized heap header). -/
theorem heap_alloc_oversized_leaves_new_page (s : HState) (size j : Nat)
    (hWF : StateWF s) (hover : heap_max_payload s.ps < align_up size)
    (hfree : List.findIdx? (fun sl => !sl.allocated) s.slots = some j) :
    (heap_alloc s size).1 = none ∧
      (heap_alloc s size).2.slots[j]? =
        some ⟨true, true, false, true, some (freshMeta s.ps)⟩ := by
  unfold heap_alloc
  obtain ⟨st, r1, r2, r3, r4⟩ := heapAllocSearch_oversized s.slots.length 0 s hWF hover
  rw [r1]
  have hov' : heap_max_payload st.ps < align_up size := by rw [r3]; exact hover
  obtain ⟨o1, o2⟩ := heapAllocNew_oversized r2 hov'
  have hfree' : List.findIdx? (fun sl => !sl.allocated) st.slots = some j := by
    rw [findIdx_allocated_congr r4]
    exact hfree
  have h2 := o2 j hfree'
  rw [r3] at h2
  exact ⟨o1, h2⟩

/-- Witness for the C10 theorem: the failing 33-byte request leaves
slot 0 allocated as an initialized heap page. -/
theorem heap_alloc_oversized_leaves_new_page_witness :
    StateWF (⟨64, [HSlot.empty]⟩ : HState) ∧
      (heap_alloc ⟨64, [HSlot.empty]⟩ 33).1 = none ∧
      (heap_alloc ⟨64, [HSlot.empty]⟩ 33).2.slots[0]? =
        some ⟨true, true, false, true, some (freshMeta 64)⟩ :=
  ⟨by decide,
    (heap_alloc_oversized_leaves_new_page ⟨64, [HSlot.empty]⟩ 33 0
      (by decide) (by decide) (by decide)).1,
    (heap_alloc_oversized_leaves_new_page ⟨64, [HSlot.empty]⟩ 33 0
      (by decide) (by decide) (by decide)).2⟩

/-! ## The free list as a chain -/

theorem lookup_setBlk_self (bs : Blocks) (k : Nat) (nb : BlockHeader) :
    lookupBlk (setBlk bs k nb) k = some nb := by
  induction bs with
  | nil => simp [setBlk, lookupBlk]
  | cons hd t ih =>
    obtain ⟨o, b⟩ := hd
    by_cases ho : o = k
    · simp [setBlk, ho, lookupBlk]
    · simp [setBlk, ho, lookupBlk, ih]

theorem lookup_setBlk_ne (bs : Blocks) {k k' : Nat} (nb : BlockHeader) (h : k' ≠ k) :
    lookupBlk (setBlk bs k nb) k' = lookupBlk bs k' := by
  have hkk : ¬ (k = k') := fun hh => h hh.symm
  induction bs with
  | nil => simp only [setBlk, lookupBlk, if_neg hkk]
  | cons hd t ih =>
    obtain ⟨o, b⟩ := hd
    by_cases ho : o = k
    · subst ho
      simp only [setBlk, if_pos rfl, lookupBlk, if_neg hkk]
    · simp only [setBlk, if_neg ho, lookupBlk]
      by_cases ho' : o = k'
      · rw [if_pos ho', if_pos ho']
      · rw [if_neg ho', if_neg ho', ih]

/-- The singly linked free list read from `bs`, starting at `off`
(0 terminates), as a relation. -/
inductive IsChain (bs : Blocks) : Nat → List (Nat × BlockHeader) → Prop where
  | nil : IsChain bs 0 []
  | cons {off : Nat} {b : BlockHeader} {l : List (Nat × BlockHeader)} :
      off ≠ 0 → lookupBlk bs off = some b → IsChain bs b.next_free l →
      IsChain bs off ((off, b) :: l)

theorem chainGo_sound {bs : Blocks} :
    ∀ {fuel off : Nat} {l : List (Nat × BlockHeader)},
      chainGo bs fuel off = some l → IsChain bs off l := by
  intro fuel
  induction fuel with
  | zero =>
    intro off l h
    unfold chainGo at h
    by_cases hz : off = 0
    · rw [if_pos hz] at h
      obtain rfl := Option.some.inj h
      exact hz ▸ IsChain.nil
    · rw [if_neg hz] at h
      cases h
  | succ n ih =>
    intro off l h
    unfold chainGo at h
    by_cases hz : off = 0
    · rw [if_pos hz] at h
      obtain rfl := Option.some.inj h
      exact hz ▸ IsChain.nil
    · rw [if_neg hz] at h
      cases hlk : lookupBlk bs off with
      | none => rw [hlk] at h; simp at h
      | some b =>
        rw [hlk] at h
        dsimp only at h
        cases hrec : chainGo bs n b.next_free with
        | none => rw [hrec] at h; simp at h
        | some l0 =>
          rw [hrec] at h
          simp only [Option.map_some'] at h
          obtain rfl := Option.some.inj h
          exact IsChain.cons hz hlk (ih hrec)

theorem isChain_chainGo {bs : Blocks} {off : Nat} {l : List (Nat × BlockHeader)}
    (h : IsChain bs off l) : ∀ fuel, l.length ≤ fuel → chainGo bs fuel off = some l := by
  induction h with
  | nil =>
    intro fuel _
    cases fuel <;> simp [chainGo]
  | cons hne hlk hch ih =>
    intro fuel hf
    cases fuel with
    | zero => simp at hf
    | succ f =>
      unfold chainGo
      rw [if_neg hne, hlk]
      dsimp only
      rw [ih f (by simp at hf; omega)]
      rfl

theorem isChain_congr {bs bs' : Blocks} {off : Nat} {l : List (Nat × BlockHeader)}
    (h : IsChain bs off l) (hagree : ∀ x ∈ l, lookupBlk bs' x.1 = some x.2) :
    IsChain bs' off l := by
  induction h with
  | nil => exact IsChain.nil
  | cons hne hlk hch ih =>
    refine IsChain.cons hne (hagree _ (List.mem_cons_self _ _)) ?_
    exact ih (fun x hx => hagree x (List.mem_cons_of_mem _ hx))

theorem isChain_mem {bs : Blocks} {off : Nat} {l : List (Nat × BlockHeader)}
    (h : IsChain bs off l) : ∀ x ∈ l, lookupBlk bs x.1 = some x.2 := by
  induction h with
  | nil => intro x hx; cases hx
  | cons hne hlk hch ih =>
    intro x hx
    rcases List.mem_cons.mp hx with rfl | hx'
    · exact hlk
    · exact ih x hx'

theorem isChain_key_ne_zero {bs : Blocks} {off : Nat} {l : List (Nat × BlockHeader)}
    (h : IsChain bs off l) : ∀ x ∈ l, x.1 ≠ 0 := by
  induction h with
  | nil => intro x hx; cases hx
  | cons hne hlk hch ih =>
    intro x hx
    rcases List.mem_cons.mp hx with rfl | hx'
    · exact hne
    · exact ih x hx'

/-- The key of the last entry of `l`, or `d` when `l` is empty: the
offset held in `prev_off` once the free-list walk has passed `l`. -/
def lastKeyD : List (Nat × BlockHeader) → Nat → Nat
  | [], d => d
  | x :: t, _ => lastKeyD t x.1

theorem lastKeyD_cons (p : Nat) (pb : BlockHeader) (t : List (Nat × BlockHeader)) (d : Nat) :
    lastKeyD ((p, pb) :: t) d = lastKeyD t p := rfl

theorem allocWalk_reaches {need : Nat} {m : HeapMeta} :
    ∀ (l₁ : List (Nat × BlockHeader)) (prev cur : Nat) {o : Nat} {b : BlockHeader}
      {l₂ : List (Nat × BlockHeader)},
      IsChain m.blocks cur (l₁ ++ (o, b) :: l₂) →
      (∀ x ∈ l₁, fits need x.2 = false) → fits need b = true →
      ∀ fuel, l₁.length < fuel →
        allocWalk need m fuel prev cur = some (allocAct need m (lastKeyD l₁ prev) o b) := by
  intro l₁
  induction l₁ with
  | nil =>
    intro prev cur o b l₂ hch h1 hf fuel hfuel
    rw [List.nil_append] at hch
    cases hch with
    | cons hne hlk htail =>
      cases fuel with
      | zero => omega
      | succ f =>
        unfold allocWalk
        rw [if_neg hne, hlk]
        dsimp only
        rw [if_pos hf]
        rfl
  | cons hd t ih =>
    obtain ⟨p, pb⟩ := hd
    intro prev cur o b l₂ hch h1 hf fuel hfuel
    rw [List.cons_append] at hch
    cases hch with
    | cons hne hlk htail =>
      cases fuel with
      | zero => omega
      | succ f =>
        unfold allocWalk
        have hpb : fits need pb = false := h1 _ (List.mem_cons_self _ _)
        rw [if_neg hne, hlk]
        dsimp only
        rw [if_neg (by simp [hpb])]
        rw [lastKeyD_cons]
        exact ih p pb.next_free htail
          (fun x hx => h1 x (List.mem_cons_of_mem _ hx)) hf f
          (by simp at hfuel; omega)

theorem length_setBlk_ge (bs : Blocks) (k : Nat) (nb : BlockHeader) :
    bs.length ≤ (setBlk bs k nb).length := by
  induction bs with
  | nil => simp [setBlk]
  | cons hd t ih =>
    obtain ⟨o, b⟩ := hd
    by_cases ho : o = k
    · simp [setBlk, ho]
    · simp only [setBlk, if_neg ho, List.length_cons]
      omega

theorem chain_length_le {bs : Blocks} {off : Nat} {l : List (Nat × BlockHeader)}
    (h : IsChain bs off l) (hnd : (l.map Prod.fst).Nodup) : l.length ≤ bs.length := by
  have hsub : l.map Prod.fst ⊆ keys bs := by
    intro k hk
    obtain ⟨x, hx, rfl⟩ := List.mem_map.mp hk
    exact List.mem_map_of_mem _ (lookupBlk_mem (isChain_mem h x hx))
  have hle := (hnd.subperm hsub).length_le
  simpa [keys] using hle

theorem getLast?_lastKeyD {l₁ : List (Nat × BlockHeader)} (h : l₁ ≠ []) (d : Nat) :
    ∃ e, l₁.getLast? = some e ∧ e ∈ l₁ ∧ e.1 = lastKeyD l₁ d := by
  induction l₁ generalizing d with
  | nil => exact absurd rfl h
  | cons x t ih =>
    cases t with
    | nil =>
      refine ⟨x, rfl, List.mem_cons_self _ _, ?_⟩
      obtain ⟨p, pb⟩ := x
      rfl
    | cons y t' =>
      obtain ⟨e, h1, h2, h3⟩ := ih (by simp) x.1
      refine ⟨e, ?_, List.mem_cons_of_mem _ h2, ?_⟩
      · rw [List.getLast?_cons_cons]
        exact h1
      · obtain ⟨p, pb⟩ := x
        rw [lastKeyD_cons]
        exact h3

theorem lastKeyD_mem : ∀ (l : List (Nat × BlockHeader)) (d : Nat), l ≠ [] →
    lastKeyD l d ∈ l.map Prod.fst := by
  intro l
  induction l with
  | nil => intro d h; exact absurd rfl h
  | cons x t ih =>
    intro d h
    obtain ⟨a, c⟩ := x
    rw [lastKeyD_cons]
    cases ht : t with
    | nil => subst ht; simp [lastKeyD]
    | cons y t' =>
      subst ht
      have hm := ih a (by simp)
      simp only [List.map_cons] at *
      exact List.mem_cons_of_mem _ hm

/-- Chain reconstruction after the allocator has taken the block that
follows prefix `l₁` on the free list: every prefix node keeps its header
except the last one, whose next pointer now leads to `tgt`; from `tgt`
the new tail chain `tl` continues.  When the prefix is empty the list
head itself moves to `tgt`. -/
theorem chain_prefix_splice {bs bs' : Blocks} {tgt : Nat}
    {tl mid : List (Nat × BlockHeader)} (htgt : IsChain bs' tgt tl) :
    ∀ (l₁ : List (Nat × BlockHeader)) (start : Nat),
      IsChain bs start (l₁ ++ mid) →
      (l₁.map Prod.fst).Nodup →
      (∀ x ∈ l₁, x.1 ≠ lastKeyD l₁ 0 → lookupBlk bs' x.1 = some x.2) →
      (∀ p pbl, l₁.getLast? = some (p, pbl) →
        lookupBlk bs' p = some ⟨pbl.size, tgt, pbl.free⟩) →
      ∃ l', IsChain bs' (if l₁.isEmpty then tgt else start) l' ∧
        l'.map Prod.fst = l₁.map Prod.fst ++ tl.map Prod.fst ∧
        l'.length = l₁.length + tl.length := by
  intro l₁
  induction l₁ with
  | nil =>
    intro start hch hnd hpres hlast
    exact ⟨tl, htgt, by simp, by simp⟩
  | cons hd t ih =>
    obtain ⟨p, pb⟩ := hd
    intro start hch hnd hpres hlast
    rw [List.cons_append] at hch
    cases hch with
    | cons hne hlk htail =>
      cases ht : t with
      | nil =>
        subst ht
        have hlkp := hlast p pb rfl
        refine ⟨(p, ⟨pb.size, tgt, pb.free⟩) :: tl, ?_, by simp, by simp [Nat.add_comm]⟩
        exact IsChain.cons hne hlkp htgt
      | cons q t' =>
        subst ht
        rw [List.map_cons, List.nodup_cons] at hnd
        obtain ⟨hpn, hnd'⟩ := hnd
        have hlastmem : lastKeyD (q :: t') p ∈ (q :: t').map Prod.fst :=
          lastKeyD_mem (q :: t') p (by simp)
        have hlkd : lastKeyD (q :: t') 0 = lastKeyD (q :: t') p := by
          obtain ⟨a, c⟩ := q
          rw [lastKeyD_cons, lastKeyD_cons]
        have hpres' : ∀ x ∈ q :: t', x.1 ≠ lastKeyD (q :: t') 0 →
            lookupBlk bs' x.1 = some x.2 := by
          intro x hx hxl
          refine hpres x (List.mem_cons_of_mem _ hx) ?_
          rw [lastKeyD_cons]
          rw [hlkd] at hxl
          exact hxl
        have hlast' : ∀ p' pbl, (q :: t').getLast? = some (p', pbl) →
            lookupBlk bs' p' = some ⟨pbl.size, tgt, pbl.free⟩ := by
          intro p' pbl hgl
          exact hlast p' pbl (by rw [List.getLast?_cons_cons]; exact hgl)
        obtain ⟨l', hch', hmap', hlen'⟩ := ih pb.next_free htail hnd' hpres' hlast'
        have hlkp : lookupBlk bs' p = some pb := by
          refine hpres (p, pb) (List.mem_cons_self _ _) ?_
          rw [lastKeyD_cons]
          intro hh
          refine hpn ?_
          show p ∈ List.map Prod.fst (q :: t')
          have hh' : p = lastKeyD (q :: t') p := hh
          rw [hh']
          exact hlastmem
        rw [if_neg (by simp)] at hch'
        refine ⟨(p, pb) :: l', IsChain.cons hne hlkp hch', ?_, ?_⟩
        · simp only [List.map_cons, List.cons_append, hmap']
        · simp only [List.length_cons, hlen']
          omega

theorem key_mem_of_lookup {bs : Blocks} {k : Nat} {v : BlockHeader}
    (h : lookupBlk bs k = some v) : k ∈ keys bs :=
  List.mem_map_of_mem Prod.fst (lookupBlk_mem h)

theorem isChain_tail_of_append {bs : Blocks} :
    ∀ (l₁ : List (Nat × BlockHeader)) {start o : Nat} {b : BlockHeader}
      {l₂ : List (Nat × BlockHeader)},
      IsChain bs start (l₁ ++ (o, b) :: l₂) → IsChain bs b.next_free l₂ := by
  intro l₁
  induction l₁ with
  | nil =>
    intro start o b l₂ h
    rw [List.nil_append] at h
    cases h with
    | cons hne hlk htail => exact htail
  | cons hd t ih =>
    intro start o b l₂ h
    rw [List.cons_append] at h
    cases h with
    | cons hne hlk htail => exact ih htail

/-- Claim C4: the small-block allocator is first-fit with split.  With
the free list read as the chain `l₁ ++ (o, b) :: l₂` where every block
of `l₁` is too small and `b` is the first block of size at least the
aligned request `need`, the allocation takes the block at `o` (payload
at `o + BH_SIZE`).  If the leftover is at least a block header plus the
minimum alignment, the block is split: the head becomes a used block of
exactly `need` bytes and the tail becomes a new free block occupying the
split block's former position on the free list.  Otherwise the whole
block is taken as-is and unlinked from the free list. -/
theorem heap_alloc_first_fit (ps need : Nat) (m : HeapMeta)
    (l₁ l₂ : List (Nat × BlockHeader)) (o : Nat) (b : BlockHeader)
    (hWF : BlocksWF ps m.blocks)
    (hch : chainOpt m = some (l₁ ++ (o, b) :: l₂))
    (hfree : ∀ ob ∈ l₁ ++ (o, b) :: l₂, ob.2.free = true)
    (hnd : ((l₁ ++ (o, b) :: l₂).map Prod.fst).Nodup)
    (hsmall : ∀ x ∈ l₁, x.2.size < need)
    (hfit : need ≤ b.size) :
    (BH_SIZE + HEAP_ALIGN ≤ b.size - need →
      ∃ m', tryAllocInPage need m = some (o + BH_SIZE, need, m') ∧
        lookupBlk m'.blocks o = some ⟨need, 0, false⟩ ∧
        lookupBlk m'.blocks (o + BH_SIZE + need) =
          some ⟨align_up (b.size - need - BH_SIZE), b.next_free, true⟩ ∧
        ∃ l', chainOpt m' = some l' ∧
          l'.map Prod.fst = l₁.map Prod.fst ++ (o + BH_SIZE + need) :: l₂.map Prod.fst) ∧
    (b.size - need < BH_SIZE + HEAP_ALIGN →
      ∃ m', tryAllocInPage need m = some (o + BH_SIZE, b.size, m') ∧
        lookupBlk m'.blocks o = some ⟨b.size, 0, false⟩ ∧
        ∃ l', chainOpt m' = some l' ∧
          l'.map Prod.fst = l₁.map Prod.fst ++ l₂.map Prod.fst) := by
  have hC : IsChain m.blocks m.first_free (l₁ ++ (o, b) :: l₂) := chainGo_sound hch
  have hmemob : (o, b) ∈ l₁ ++ (o, b) :: l₂ :=
    List.mem_append_right _ (List.mem_cons_self _ _)
  have hlko : lookupBlk m.blocks o = some b := isChain_mem hC _ hmemob
  have hobk := hWF.2.1 _ (lookupBlk_mem hlko)
  have ho16 : HH_SIZE ≤ o := hobk.1
  have hbfree : b.free = true := hfree _ hmemob
  have hfitb : fits need b = true := by simp [fits, hbfree, hfit]
  have hfits1 : ∀ x ∈ l₁, fits need x.2 = false := by
    intro x hx
    have h1 := hsmall x hx
    have h2 : ¬ (need ≤ x.2.size) := by omega
    simp [fits, h2]
  have hlenL : (l₁ ++ (o, b) :: l₂).length ≤ m.blocks.length := chain_length_le hC hnd
  have hl1len : l₁.length < m.blocks.length + 1 := by
    simp only [List.length_append, List.length_cons] at hlenL
    omega
  have hwalk := allocWalk_reaches l₁ 0 m.first_free hC hfits1 hfitb
    (m.blocks.length + 1) hl1len
  rw [List.map_append, List.map_cons, List.nodup_append] at hnd
  obtain ⟨hnd1, hnd2c, hdisj⟩ := hnd
  rw [List.nodup_cons] at hnd2c
  obtain ⟨honotl2, hnd2⟩ := hnd2c
  have honotl1 : o ∉ l₁.map Prod.fst := by
    intro hh
    exact (hdisj hh) (List.mem_cons_self _ _)
  have hl2chain : IsChain m.blocks b.next_free l₂ := isChain_tail_of_append l₁ hC
  have hl2keys : ∀ x ∈ l₂, x.1 ∈ keys m.blocks := fun x hx =>
    key_mem_of_lookup (isChain_mem hl2chain x hx)
  have hl2ne_o : ∀ x, x ∈ l₂ → x.1 ≠ o := by
    intro x hx hh
    have hm : x.1 ∈ l₂.map Prod.fst := List.mem_map_of_mem Prod.fst hx
    rw [hh] at hm
    exact honotl2 hm
  constructor
  · -- split case
    intro hsp
    have hneed_lt : need < b.size := by
      simp only [BH_SIZE, HEAP_ALIGN] at hsp
      omega
    have hnfo_not : o + BH_SIZE + need ∉ keys m.blocks := by
      refine not_key_inside hWF hlko ?_ ?_
      · simp only [BH_SIZE]
        omega
      · simp only [BH_SIZE]
        omega
    have hbs2_o : lookupBlk (splitBlocks m.blocks o b need) o = some ⟨need, 0, false⟩ :=
      lookup_setBlk_self _ _ _
    have hbs2_nfo : lookupBlk (splitBlocks m.blocks o b need) (o + BH_SIZE + need) =
        some ⟨align_up (b.size - need - BH_SIZE), b.next_free, true⟩ := by
      unfold splitBlocks
      rw [lookup_setBlk_ne _ _ (by simp only [BH_SIZE]; omega)]
      exact lookup_setBlk_self _ _ _
    have hbs2_other : ∀ k, k ≠ o → k ≠ o + BH_SIZE + need →
        lookupBlk (splitBlocks m.blocks o b need) k = lookupBlk m.blocks k := by
      intro k h1 h2
      unfold splitBlocks
      rw [lookup_setBlk_ne _ _ h1, lookup_setBlk_ne _ _ h2]
    have hnfo0 : o + BH_SIZE + need ≠ 0 := by
      simp only [BH_SIZE]
      omega
    have hlen2 : l₂.length ≤ m.blocks.length := chain_length_le hl2chain hnd2
    have hlenbs2 : m.blocks.length ≤ (splitBlocks m.blocks o b need).length := by
      unfold splitBlocks
      calc m.blocks.length ≤ (setBlk m.blocks (o + BH_SIZE + need)
            ⟨align_up (b.size - need - BH_SIZE), b.next_free, true⟩).length :=
              length_setBlk_ge _ _ _
        _ ≤ _ := length_setBlk_ge _ _ _
    by_cases hl1e : l₁ = []
    · subst hl1e
      have hact : allocAct need m (lastKeyD [] 0) o b =
          (o + BH_SIZE, need,
            ⟨o + BH_SIZE + need, m.total_free - (need + BH_SIZE),
              splitBlocks m.blocks o b need⟩) := by
        simp [allocAct, if_pos hsp, lastKeyD]
      rw [hact] at hwalk
      refine ⟨_, hwalk, hbs2_o, hbs2_nfo, ?_⟩
      have htl : IsChain (splitBlocks m.blocks o b need) (o + BH_SIZE + need)
          ((o + BH_SIZE + need,
            (⟨align_up (b.size - need - BH_SIZE), b.next_free, true⟩ : BlockHeader)) :: l₂) := by
        refine IsChain.cons hnfo0 hbs2_nfo ?_
        refine isChain_congr hl2chain ?_
        intro x hx
        rw [hbs2_other x.1 (hl2ne_o x hx) ?_]
        · exact isChain_mem hl2chain x hx
        · intro hh
          exact hnfo_not (hh ▸ hl2keys x hx)
      refine ⟨(o + BH_SIZE + need,
        (⟨align_up (b.size - need - BH_SIZE), b.next_free, true⟩ : BlockHeader)) :: l₂, ?_, ?_⟩
      · show chainGo (splitBlocks m.blocks o b need)
          ((splitBlocks m.blocks o b need).length + 1) (o + BH_SIZE + need) = some _
        refine isChain_chainGo htl _ ?_
        simp only [List.length_cons]
        omega
      · simp
    · obtain ⟨e, hgl, hemem, hekey⟩ := getLast?_lastKeyD hl1e 0
      obtain ⟨pl, pbl⟩ := e
      have hplmem : (pl, pbl) ∈ l₁ ++ (o, b) :: l₂ := List.mem_append_left _ hemem
      have hpl_look : lookupBlk m.blocks pl = some pbl := isChain_mem hC _ hplmem
      have hpl0 : pl ≠ 0 := isChain_key_ne_zero hC _ hplmem
      have hplkeys1 : pl ∈ l₁.map Prod.fst := List.mem_map_of_mem Prod.fst hemem
      have hpl_ne_o : pl ≠ o := fun hh => honotl1 (hh ▸ hplkeys1)
      have hpl_ne_nfo : pl ≠ o + BH_SIZE + need := fun hh =>
        hnfo_not (hh ▸ key_mem_of_lookup hpl_look)
      have hbs2_pl : lookupBlk (splitBlocks m.blocks o b need) pl = some pbl := by
        rw [hbs2_other pl hpl_ne_o hpl_ne_nfo]
        exact hpl_look
      have hpatch : patchPrev (splitBlocks m.blocks o b need) pl (o + BH_SIZE + need) =
          setBlk (splitBlocks m.blocks o b need) pl
            ⟨pbl.size, o + BH_SIZE + need, pbl.free⟩ := by
        unfold patchPrev
        rw [hbs2_pl]
      have hact : allocAct need m (lastKeyD l₁ 0) o b =
          (o + BH_SIZE, need,
            ⟨m.first_free, m.total_free - (need + BH_SIZE),
              setBlk (splitBlocks m.blocks o b need) pl
                ⟨pbl.size, o + BH_SIZE + need, pbl.free⟩⟩) := by
        rw [show lastKeyD l₁ 0 = pl from hekey.symm]
        simp [allocAct, if_pos hsp, if_neg hpl0, hpatch]
      rw [hact] at hwalk
      have hbs3_o : lookupBlk (setBlk (splitBlocks m.blocks o b need) pl
          ⟨pbl.size, o + BH_SIZE + need, pbl.free⟩) o = some ⟨need, 0, false⟩ := by
        rw [lookup_setBlk_ne _ _ (fun hh => hpl_ne_o hh.symm)]
        exact hbs2_o
      have hbs3_nfo : lookupBlk (setBlk (splitBlocks m.blocks o b need) pl
          ⟨pbl.size, o + BH_SIZE + need, pbl.free⟩) (o + BH_SIZE + need) =
          some ⟨align_up (b.size - need - BH_SIZE), b.next_free, true⟩ := by
        rw [lookup_setBlk_ne _ _ (fun hh => hpl_ne_nfo hh.symm)]
        exact hbs2_nfo
      have hbs3_pl : lookupBlk (setBlk (splitBlocks m.blocks o b need) pl
          ⟨pbl.size, o + BH_SIZE + need, pbl.free⟩) pl =
          some ⟨pbl.size, o + BH_SIZE + need, pbl.free⟩ := lookup_setBlk_self _ _ _
      have hbs3_other : ∀ k, k ≠ o → k ≠ o + BH_SIZE + need → k ≠ pl →
          lookupBlk (setBlk (splitBlocks m.blocks o b need) pl
            ⟨pbl.size, o + BH_SIZE + need, pbl.free⟩) k = lookupBlk m.blocks k := by
        intro k h1 h2 h3
        rw [lookup_setBlk_ne _ _ h3]
        exact hbs2_other k h1 h2
      refine ⟨_, hwalk, hbs3_o, hbs3_nfo, ?_⟩
      have htl : IsChain (setBlk (splitBlocks m.blocks o b need) pl
          ⟨pbl.size, o + BH_SIZE + need, pbl.free⟩) (o + BH_SIZE + need)
          ((o + BH_SIZE + need,
            (⟨align_up (b.size - need - BH_SIZE), b.next_free, true⟩ : BlockHeader)) :: l₂) := by
        refine IsChain.cons hnfo0 hbs3_nfo ?_
        refine isChain_congr hl2chain ?_
        intro x hx
        rw [hbs3_other x.1 (hl2ne_o x hx) ?_ ?_]
        · exact isChain_mem hl2chain x hx
        · intro hh
          exact hnfo_not (hh ▸ hl2keys x hx)
        · intro hh
          exact (hdisj hplkeys1)
            (List.mem_cons_of_mem _ (hh ▸ List.mem_map_of_mem Prod.fst hx))
      obtain ⟨l', hch', hmap', hlen'⟩ := chain_prefix_splice htl l₁ m.first_free hC hnd1
        (by
          intro x hx hxl
          have hx1 : x.1 ∈ l₁.map Prod.fst := List.mem_map_of_mem Prod.fst hx
          rw [hbs3_other x.1 (fun hh => honotl1 (hh ▸ hx1)) ?_ ?_]
          · exact isChain_mem hC x (List.mem_append_left _ hx)
          · intro hh
            exact hnfo_not
              (hh ▸ key_mem_of_lookup (isChain_mem hC x (List.mem_append_left _ hx)))
          · intro hh
            rw [show lastKeyD l₁ 0 = pl from hekey.symm] at hxl
            exact hxl hh)
        (by
          intro p' pbl' hgl'
          have hpair := Option.some.inj (hgl.symm.trans hgl')
          injection hpair with hp1 hp2
          subst hp1
          subst hp2
          exact hbs3_pl)
      rw [if_neg (by simp [hl1e])] at hch'
      refine ⟨l', ?_, ?_⟩
      · show chainGo (setBlk (splitBlocks m.blocks o b need) pl
          ⟨pbl.size, o + BH_SIZE + need, pbl.free⟩)
          ((setBlk (splitBlocks m.blocks o b need) pl
            ⟨pbl.size, o + BH_SIZE + need, pbl.free⟩).length + 1) m.first_free = some l'
        refine isChain_chainGo hch' _ ?_
        have hlenbs3 : (splitBlocks m.blocks o b need).length ≤
            (setBlk (splitBlocks m.blocks o b need) pl
              ⟨pbl.size, o + BH_SIZE + need, pbl.free⟩).length := length_setBlk_ge _ _ _
        simp only [List.length_append, List.length_cons] at hlenL
        simp only [hlen', List.length_cons]
        omega
      · rw [hmap']
        simp
  · -- take-whole case
    intro htk
    have hsp' : ¬ (BH_SIZE + HEAP_ALIGN ≤ b.size - need) := by omega
    have hbs2_o : lookupBlk (setBlk m.blocks o ⟨b.size, 0, false⟩) o =
        some ⟨b.size, 0, false⟩ := lookup_setBlk_self _ _ _
    have hbs2_other : ∀ k, k ≠ o →
        lookupBlk (setBlk m.blocks o ⟨b.size, 0, false⟩) k = lookupBlk m.blocks k := by
      intro k h1
      rw [lookup_setBlk_ne _ _ h1]
    have hlen2 : l₂.length ≤ m.blocks.length := chain_length_le hl2chain hnd2
    have hlenbs2 : m.blocks.length ≤ (setBlk m.blocks o ⟨b.size, 0, false⟩).length :=
      length_setBlk_ge _ _ _
    by_cases hl1e : l₁ = []
    · subst hl1e
      have hact : allocAct need m (lastKeyD [] 0) o b =
          (o + BH_SIZE, b.size,
            ⟨b.next_free, if b.size ≤ m.total_free then m.total_free - b.size else 0,
              setBlk m.blocks o ⟨b.size, 0, false⟩⟩) := by
        simp [allocAct, if_neg hsp', lastKeyD]
      rw [hact] at hwalk
      refine ⟨_, hwalk, hbs2_o, ?_⟩
      have htl : IsChain (setBlk m.blocks o ⟨b.size, 0, false⟩) b.next_free l₂ := by
        refine isChain_congr hl2chain ?_
        intro x hx
        rw [hbs2_other x.1 (hl2ne_o x hx)]
        exact isChain_mem hl2chain x hx
      refine ⟨l₂, ?_, by simp⟩
      show chainGo (setBlk m.blocks o ⟨b.size, 0, false⟩)
        ((setBlk m.blocks o ⟨b.size, 0, false⟩).length + 1) b.next_free = some l₂
      refine isChain_chainGo htl _ ?_
      omega
    · obtain ⟨e, hgl, hemem, hekey⟩ := getLast?_lastKeyD hl1e 0
      obtain ⟨pl, pbl⟩ := e
      have hplmem : (pl, pbl) ∈ l₁ ++ (o, b) :: l₂ := List.mem_append_left _ hemem
      have hpl_look : lookupBlk m.blocks pl = some pbl := isChain_mem hC _ hplmem
      have hpl0 : pl ≠ 0 := isChain_key_ne_zero hC _ hplmem
      have hplkeys1 : pl ∈ l₁.map Prod.fst := List.mem_map_of_mem Prod.fst hemem
      have hpl_ne_o : pl ≠ o := fun hh => honotl1 (hh ▸ hplkeys1)
      have hbs2_pl : lookupBlk (setBlk m.blocks o ⟨b.size, 0, false⟩) pl = some pbl := by
        rw [hbs2_other pl hpl_ne_o]
        exact hpl_look
      have hpatch : patchPrev (setBlk m.blocks o ⟨b.size, 0, false⟩) pl b.next_free =
          setBlk (setBlk m.blocks o ⟨b.size, 0, false⟩) pl
            ⟨pbl.size, b.next_free, pbl.free⟩ := by
        unfold patchPrev
        rw [hbs2_pl]
      have hact : allocAct need m (lastKeyD l₁ 0) o b =
          (o + BH_SIZE, b.size,
            ⟨m.first_free, if b.size ≤ m.total_free then m.total_free - b.size else 0,
              setBlk (setBlk m.blocks o ⟨b.size, 0, false⟩) pl
                ⟨pbl.size, b.next_free, pbl.free⟩⟩) := by
        rw [show lastKeyD l₁ 0 = pl from hekey.symm]
        simp [allocAct, if_neg hsp', if_neg hpl0, hpatch]
      rw [hact] at hwalk
      have hbs3_o : lookupBlk (setBlk (setBlk m.blocks o ⟨b.size, 0, false⟩) pl
          ⟨pbl.size, b.next_free, pbl.free⟩) o = some ⟨b.size, 0, false⟩ := by
        rw [lookup_setBlk_ne _ _ (fun hh => hpl_ne_o hh.symm)]
        exact hbs2_o
      have hbs3_pl : lookupBlk (setBlk (setBlk m.blocks o ⟨b.size, 0, false⟩) pl
          ⟨pbl.size, b.next_free, pbl.free⟩) pl =
          some ⟨pbl.size, b.next_free, pbl.free⟩ := lookup_setBlk_self _ _ _
      have hbs3_other : ∀ k, k ≠ o → k ≠ pl →
          lookupBlk (setBlk (setBlk m.blocks o ⟨b.size, 0, false⟩) pl
            ⟨pbl.size, b.next_free, pbl.free⟩) k = lookupBlk m.blocks k := by
        intro k h1 h3
        rw [lookup_setBlk_ne _ _ h3]
        exact hbs2_other k h1
      refine ⟨_, hwalk, hbs3_o, ?_⟩
      have htl : IsChain (setBlk (setBlk m.blocks o ⟨b.size, 0, false⟩) pl
          ⟨pbl.size, b.next_free, pbl.free⟩) b.next_free l₂ := by
        refine isChain_congr hl2chain ?_
        intro x hx
        rw [hbs3_other x.1 (hl2ne_o x hx) ?_]
        · exact isChain_mem hl2chain x hx
        · intro hh
          exact (hdisj hplkeys1)
            (List.mem_cons_of_mem _ (hh ▸ List.mem_map_of_mem Prod.fst hx))
      obtain ⟨l', hch', hmap', hlen'⟩ := chain_prefix_splice htl l₁ m.first_free hC hnd1
        (by
          intro x hx hxl
          have hx1 : x.1 ∈ l₁.map Prod.fst := List.mem_map_of_mem Prod.fst hx
          rw [hbs3_other x.1 (fun hh => honotl1 (hh ▸ hx1)) ?_]
          · exact isChain_mem hC x (List.mem_append_left _ hx)
          · intro hh
            rw [show lastKeyD l₁ 0 = pl from hekey.symm] at hxl
            exact hxl hh)
        (by
          intro p' pbl' hgl'
          have hpair := Option.some.inj (hgl.symm.trans hgl')
          injection hpair with hp1 hp2
          subst hp1
          subst hp2
          exact hbs3_pl)
      rw [if_neg (by simp [hl1e])] at hch'
      refine ⟨l', ?_, ?_⟩
      · show chainGo (setBlk (setBlk m.blocks o ⟨b.size, 0, false⟩) pl
          ⟨pbl.size, b.next_free, pbl.free⟩)
          ((setBlk (setBlk m.blocks o ⟨b.size, 0, false⟩) pl
            ⟨pbl.size, b.next_free, pbl.free⟩).length + 1) m.first_free = some l'
        refine isChain_chainGo hch' _ ?_
        have hlenbs3 : (setBlk m.blocks o ⟨b.size, 0, false⟩).length ≤
            (setBlk (setBlk m.blocks o ⟨b.size, 0, false⟩) pl
              ⟨pbl.size, b.next_free, pbl.free⟩).length := length_setBlk_ge _ _ _
        simp only [List.length_append, List.length_cons] at hlenL
        simp only [hlen']
        omega
      · rw [hmap']

/-- Witness for the C4 theorem on a fresh 64-byte heap page: the single
free block at offset 16 of size 32 is split by an 8-byte request. -/
theorem heap_alloc_first_fit_witness :
    BlocksWF 64 (freshMeta 64).blocks ∧
      (∃ m', tryAllocInPage 8 (freshMeta 64) = some (16 + BH_SIZE, 8, m') ∧
        lookupBlk m'.blocks 16 = some ⟨8, 0, false⟩ ∧
        lookupBlk m'.blocks (16 + BH_SIZE + 8) = some ⟨align_up (32 - 8 - BH_SIZE), 0, true⟩ ∧
        ∃ l', chainOpt m' = some l' ∧
          l'.map Prod.fst = List.map Prod.fst ([] : List (Nat × BlockHeader)) ++
            (16 + BH_SIZE + 8) :: List.map Prod.fst ([] : List (Nat × BlockHeader))) :=
  ⟨by decide,
    (heap_alloc_first_fit 64 8 (freshMeta 64) [] [] 16 ⟨32, 0, true⟩
      (by decide) (by decide) (by decide) (by decide) (by decide) (by decide)).1
      (by decide)⟩

/-!
### Paging engine model

Model of the `VMManager` page table, swap file and RAM buffers
(src/containers.h).  A RAM buffer (`ram_addr` plus the bytes it holds) is
modelled as `Option (List Nat)` (`none` = nullptr); the swap file is a
page-indexed list of page images (`swap_offset` of page `i` is `i * page_size`,
so page `i` always reads/writes region `i` of the store).  `malloc(page_size)`
is modelled by a capacity `cap`: it succeeds iff fewer than `cap` buffers are
currently held.  A freshly malloc'ed buffer carries unspecified bytes in C;
the model fills it with zeros (every path that exposes its content either
memsets it or overwrites it from swap first, except the `zero_on_alloc=false`
fresh-allocation path whose content no claim depends on).
-/

/-- Model of `VMPage`: the per-page descriptor. -/
structure PPage where
  allocated : Bool
  in_ram : Bool
  can_free_ram : Bool
  dirty : Bool
  zero_filled : Bool
  is_heap : Bool
  ram : Option (List Nat)
  last_access : Nat
deriving DecidableEq

/-- Model of the `VMManager` paging state (`pages`, swap file, `page_size`,
`access_tick`, and the malloc capacity). -/
structure VMState where
  pages : List PPage
  store : List (List Nat)
  ps : Nat
  tick : Nat
  cap : Nat
deriving DecidableEq

def setPage (s : VMState) (i : Nat) (pg : PPage) : VMState :=
  { s with pages := s.pages.set i pg }

/-- Contents of swap region `i` (page `i`'s image in the swap file). -/
def storeAt (s : VMState) (i : Nat) : List Nat :=
  s.store.getD i (List.replicate s.ps 0)

def setStore (s : VMState) (i : Nat) (c : List Nat) : VMState :=
  { s with store := s.store.set i c }

/-- Number of RAM page buffers currently held. -/
def buffersHeld (s : VMState) : Nat :=
  (s.pages.filter (fun pg => pg.ram.isSome)).length

/-- `malloc(page_size)` succeeds iff the capacity is not exhausted. -/
def mallocOk (s : VMState) : Bool :=
  buffersHeld s < s.cap

/-- Eviction eligibility (`evict_one_page`, lines 570-572): allocated,
resident (`in_ram && ram_addr`), and permitted to free RAM. -/
def eligible (pg : PPage) : Bool :=
  pg.allocated && pg.in_ram && pg.ram.isSome && pg.can_free_ram

/-- `std::numeric_limits<uint64_t>::max()`, the initial `best` key. -/
def U64_MAX : Nat := 2 ^ 64 - 1

/-- The victim-selection loop of `evict_one_page` (lines 568-578): scan all
pages, keeping the eligible page with the strictly smallest `last_access`. -/
def find_victim_go : List PPage → Nat → Option Nat → Nat → Option Nat
  | [], _, victim, _ => victim
  | pg :: rest, i, victim, best =>
    if eligible pg && decide (pg.last_access < best) then
      find_victim_go rest (i + 1) (some i) pg.last_access
    else
      find_victim_go rest (i + 1) victim best

def find_victim (s : VMState) : Option Nat :=
  find_victim_go s.pages 0 none U64_MAX

/-- `VMManager::swap_out` (lines 706-725): write the page image to its swap
region if dirty or forced (clearing `dirty`), then release the RAM buffer
when `can_free_ram` is set. -/
def swap_out (s : VMState) (idx : Nat) (force : Bool) : Bool × VMState :=
  match s.pages[idx]? with
  | none => (false, s)
  | some page =>
    if page.allocated = false then (false, s)
    else
      match page.ram with
      | none => (true, s)
      | some c =>
        if page.in_ram = false then (true, s)
        else
          let s1 := if page.dirty || force then setStore s idx c else s
          let pg1 := if page.dirty || force then { page with dirty := false } else page
          if pg1.can_free_ram then
            (true, setPage s1 idx { pg1 with ram := none, in_ram := false })
          else
            (true, setPage s1 idx pg1)

/-- `VMManager::evict_one_page` (lines 564-582). -/
def evict_one_page (s : VMState) : Bool × VMState :=
  match find_victim s with
  | none => (false, s)
  | some v => swap_out s v false

/-- The retry loop of `alloc_ram_buffer_with_eviction` (lines 593-600), with
the `attempt < page_count` bound made explicit as `fuel`. -/
def allocRamGo : Nat → VMState → Option (List Nat) × VMState
  | 0, s => (none, s)
  | fuel + 1, s =>
    if mallocOk s then (some (List.replicate s.ps 0), s)
    else
      match evict_one_page s with
      | (false, s1) => (none, s1)
      | (true, s1) => allocRamGo fuel s1

def alloc_ram_buffer_with_eviction (s : VMState) : Option (List Nat) × VMState :=
  allocRamGo s.pages.length s

/-- `VMManager::swap_in` (lines 732-748): acquire a buffer when the page is
not resident, then unconditionally read the page image from its swap region,
bump `last_access` and clear `dirty`. -/
def swap_in (s : VMState) (idx : Nat) : Bool × VMState :=
  match s.pages[idx]? with
  | none => (false, s)
  | some page =>
    if page.allocated = false then (false, s)
    else
      match (if page.in_ram = false || page.ram.isNone then
               alloc_ram_buffer_with_eviction s
             else (page.ram, s)) with
      | (none, s1) =>
        match s1.pages[idx]? with
        | none => (false, s1)
        | some pg1 => (false, setPage s1 idx { pg1 with ram := none })
      | (some _, s1) =>
        match s1.pages[idx]? with
        | none => (false, s1)
        | some pg1 =>
          (true, { setPage s1 idx
            { pg1 with ram := some (storeAt s1 idx), in_ram := true,
                       last_access := s1.tick + 1, dirty := false }
            with tick := s1.tick + 1 })

/-- `VMManager::get_ptr_internal` (lines 891-902): swap in when not
`in_ram`, then bounds-check the offset, bump `last_access`, and mark dirty
on write intent. -/
def get_ptr_internal (s : VMState) (page_idx off : Nat) (mark : Bool) : Bool × VMState :=
  match s.pages[page_idx]? with
  | none => (false, s)
  | some page =>
    if page.allocated = false then (false, s)
    else
      match (if page.in_ram = false then swap_in s page_idx else (true, s)) with
      | (false, s1) => (false, s1)
      | (true, s1) =>
        if s1.ps ≤ off then (false, s1)
        else
          match s1.pages[page_idx]? with
          | none => (false, s1)
          | some pg1 =>
            (true, { setPage s1 page_idx
              { pg1 with last_access := s1.tick + 1,
                         dirty := (if mark then true else pg1.dirty) }
              with tick := s1.tick + 1 })

/-- Overwrite `d.length` bytes of `c` starting at `off` (a `memcpy` into a
page buffer). -/
def listOverwrite (c : List Nat) (off : Nat) (d : List Nat) : List Nat :=
  c.take off ++ d ++ c.drop (off + d.length)

/-- A caller writing `data` through `get_write_ptr(idx, off)` (a `memcpy`
to the returned pointer). -/
def write_bytes (s : VMState) (idx off : Nat) (data : List Nat) : Bool × VMState :=
  match get_ptr_internal s idx off true with
  | (false, s1) => (false, s1)
  | (true, s1) =>
    match s1.pages[idx]? with
    | none => (false, s1)
    | some pg =>
      match pg.ram with
      | none => (false, s1)
      | some c => (true, setPage s1 idx { pg with ram := some (listOverwrite c off data) })

/-- A caller reading `len` bytes through `get_read_ptr(idx, off)`. -/
def read_bytes (s : VMState) (idx off len : Nat) : Option (List Nat) × VMState :=
  match get_ptr_internal s idx off false with
  | (false, s1) => (none, s1)
  | (true, s1) =>
    match s1.pages[idx]? with
    | none => (none, s1)
    | some pg =>
      match pg.ram with
      | none => (none, s1)
      | some c => (some ((c.drop off).take len), s1)

/-- Model of `VMManager::AllocOptions` (lines 110-114). -/
structure AllocOptions where
  can_free_ram : Bool
  zero_on_alloc : Bool
  reuse_swap_data : Bool
deriving DecidableEq

/-- `VMManager::alloc_page_ex` (lines 608-642): take the first unallocated
slot, acquire a buffer with eviction fallback (the slot's `ram_addr` is
assigned the result even on failure), and initialize the descriptor and
contents per the options. -/
def alloc_page_ex (s : VMState) (opts : AllocOptions) : Option Nat × VMState :=
  match s.pages.findIdx? (fun pg => !pg.allocated) with
  | none => (none, s)
  | some i =>
    match alloc_ram_buffer_with_eviction s with
    | (none, s1) =>
      match s1.pages[i]? with
      | none => (none, s1)
      | some pg1 => (none, setPage s1 i { pg1 with ram := none })
    | (some buf, s1) =>
      match s1.pages[i]? with
      | none => (none, s1)
      | some pg1 =>
        let base := { pg1 with ram := some buf, allocated := true, in_ram := true,
                                can_free_ram := opts.can_free_ram,
                                last_access := s1.tick + 1, is_heap := false }
        let pg2 :=
          if opts.reuse_swap_data then
            { base with ram := some (storeAt s1 i), dirty := false, zero_filled := false }
          else if opts.zero_on_alloc then
            { base with ram := some (List.replicate s1.ps 0), zero_filled := true,
                        dirty := true }
          else
            { base with zero_filled := false, dirty := true }
        (some i, { setPage s1 i pg2 with tick := s1.tick + 1 })

/-- `VMManager::alloc_page_at` (lines 652-686): like `alloc_page_ex` but at a
fixed index; already-allocated pages are merely swapped in if needed. -/
def alloc_page_at (s : VMState) (idx : Nat) (opts : AllocOptions) : Bool × VMState :=
  match s.pages[idx]? with
  | none => (false, s)
  | some pg =>
    if pg.allocated then
      if pg.in_ram = false || pg.ram.isNone then swap_in s idx
      else (true, s)
    else
      match alloc_ram_buffer_with_eviction s with
      | (none, s1) =>
        match s1.pages[idx]? with
        | none => (false, s1)
        | some pg1 => (false, setPage s1 idx { pg1 with ram := none })
      | (some buf, s1) =>
        match s1.pages[idx]? with
        | none => (false, s1)
        | some pg1 =>
          let base := { pg1 with ram := some buf, allocated := true, in_ram := true,
                                  can_free_ram := opts.can_free_ram,
                                  last_access := s1.tick + 1, is_heap := false }
          let pg2 :=
            if opts.reuse_swap_data then
              { base with ram := some (storeAt s1 idx), dirty := false, zero_filled := false }
            else if opts.zero_on_alloc then
              { base with ram := some (List.replicate s1.ps 0), zero_filled := true,
                          dirty := true }
            else
              { base with zero_filled := false, dirty := true }
          (true, { setPage s1 idx pg2 with tick := s1.tick + 1 })

/-- `VMManager::free_page` (lines 830-857): flush a resident page (unless
wiping), optionally zero the swap region, release the buffer and reset the
descriptor. -/
def free_page (s : VMState) (idx : Nat) (wipe : Bool) : Bool × VMState :=
  match s.pages[idx]? with
  | none => (false, s)
  | some page =>
    if page.allocated = false then (true, s)
    else
      let s1 := if page.in_ram && page.ram.isSome && !wipe then (swap_out s idx false).2 else s
      let s2 := if wipe then setStore s1 idx (List.replicate s1.ps 0) else s1
      match s2.pages[idx]? with
      | none => (false, s2)
      | some pg2 =>
        (true, { setPage s2 idx
          { pg2 with ram := none, in_ram := false, allocated := false, dirty := false,
                     zero_filled := true, is_heap := false, last_access := s2.tick + 1 }
          with tick := s2.tick + 1 })

/-- `VMManager::mark_dirty` (lines 791-795). -/
def mark_dirty (s : VMState) (idx : Nat) : VMState :=
  match s.pages[idx]? with
  | none => s
  | some page => if page.allocated then setPage s idx { page with dirty := true } else s

/-- `VMManager::mark_clean` (lines 801-805). -/
def mark_clean (s : VMState) (idx : Nat) : VMState :=
  match s.pages[idx]? with
  | none => s
  | some page => if page.allocated then setPage s idx { page with dirty := false } else s

/-- `VMManager::flush_page` (line 822). -/
def flush_page (s : VMState) (idx : Nat) : Bool × VMState :=
  swap_out s idx true

/-- The loop of `VMManager::flush_all` (lines 181-185). -/
def flushAllGo : Nat → Nat → VMState → VMState
  | 0, _, s => s
  | fuel + 1, i, s =>
    match s.pages[i]? with
    | none => s
    | some pg => flushAllGo fuel (i + 1) (if pg.allocated then (swap_out s i true).2 else s)

def flush_all (s : VMState) : VMState :=
  flushAllGo s.pages.length 0 s

/-- The loop of `VMManager::end` (lines 192-213): swap out and free every
allocated page, and release stray buffers of unallocated pages. -/
def endAllGo : Nat → Nat → VMState → VMState
  | 0, _, s => s
  | fuel + 1, i, s =>
    match s.pages[i]? with
    | none => s
    | some pg =>
      endAllGo fuel (i + 1)
        (if pg.allocated then (free_page (swap_out s i false).2 i false).2
         else
           match pg.ram with
           | some _ => setPage s i { pg with ram := none }
           | none => s)

def end_manager (s : VMState) : VMState :=
  endAllGo s.pages.length 0 s

/-- One public paging operation (the state-mutating VMManager entry points). -/
inductive POp where
  | swapOut (idx : Nat) (force : Bool)
  | swapIn (idx : Nat)
  | evictOne
  | flushOne (idx : Nat)
  | flushAllOp
  | freeOp (idx : Nat) (wipe : Bool)
  | allocEx (opts : AllocOptions)
  | allocAt (idx : Nat) (opts : AllocOptions)
  | getPtr (idx off : Nat) (mark : Bool)
  | writeOp (idx off : Nat) (data : List Nat)
  | readOp (idx off len : Nat)
  | markD (idx : Nat)
  | markC (idx : Nat)
  | endOp
deriving DecidableEq

/-- Effect of one paging operation on the manager state. -/
def papply (s : VMState) : POp → VMState
  | POp.swapOut idx force => (swap_out s idx force).2
  | POp.swapIn idx => (swap_in s idx).2
  | POp.evictOne => (evict_one_page s).2
  | POp.flushOne idx => (flush_page s idx).2
  | POp.flushAllOp => flush_all s
  | POp.freeOp idx wipe => (free_page s idx wipe).2
  | POp.allocEx opts => (alloc_page_ex s opts).2
  | POp.allocAt idx opts => (alloc_page_at s idx opts).2
  | POp.getPtr idx off mark => (get_ptr_internal s idx off mark).2
  | POp.writeOp idx off data => (write_bytes s idx off data).2
  | POp.readOp idx off len => (read_bytes s idx off len).2
  | POp.markD idx => mark_dirty s idx
  | POp.markC idx => mark_clean s idx
  | POp.endOp => end_manager s

/-!
### Claim C5: swap-in of a resident page
-/

/-- Counterexample to Claim C5: `swap_in` on a page that is already resident
in RAM does read from the backing store — the page's RAM buffer content
changes from `[1,2,3,4]` to the swap image `[9,9,9,9]`, refuting "performs no
read from the backing store and leaves the page's RAM buffer content
unchanged" (src/containers.h lines 742-744 run unconditionally). -/
theorem swap_in_resident_counterexample :
    ((swap_in ⟨[⟨true, true, true, false, false, false, some [1, 2, 3, 4], 0⟩],
        [[9, 9, 9, 9]], 4, 0, 1⟩ 0).2.pages[0]?.bind PPage.ram) ≠
      ((⟨[⟨true, true, true, false, false, false, some [1, 2, 3, 4], 0⟩],
        [[9, 9, 9, 9]], 4, 0, 1⟩ : VMState).pages[0]?.bind PPage.ram) := by
  decide

/-- Claim C5 (amended): `swap_in` on an allocated page that is already
resident in RAM skips buffer acquisition (no eviction, no other page or the
store is touched: the final state is exactly `s` with page `idx` updated)
but still reads the page image back from its swap region, overwriting the
RAM buffer with the swap content, bumping `last_access` and clearing
`dirty`. -/
theorem swap_in_resident_rereads_swap (s : VMState) (idx : Nat) (pg : PPage)
    (hg : s.pages[idx]? = some pg) (halloc : pg.allocated = true)
    (hres : pg.in_ram = true) (hram : pg.ram.isSome = true) :
    swap_in s idx =
      (true, { setPage s idx
        { pg with ram := some (storeAt s idx), in_ram := true,
                  last_access := s.tick + 1, dirty := false }
        with tick := s.tick + 1 }) := by
  obtain ⟨c, hc⟩ := Option.isSome_iff_exists.mp hram
  unfold swap_in
  rw [hg]
  dsimp only
  rw [if_neg (by simp [halloc]), if_neg (by simp [hres, hc])]
  rw [hc]
  dsimp only
  rw [hg]

/-- Witness for the amended C5 theorem on a concrete resident page. -/
theorem swap_in_resident_rereads_swap_witness :
    ((⟨[⟨true, true, true, true, false, false, some [1, 2, 3, 4], 2⟩],
        [[9, 9, 9, 9]], 4, 7, 1⟩ : VMState).pages[0]? =
        some ⟨true, true, true, true, false, false, some [1, 2, 3, 4], 2⟩) ∧
      swap_in ⟨[⟨true, true, true, true, false, false, some [1, 2, 3, 4], 2⟩],
          [[9, 9, 9, 9]], 4, 7, 1⟩ 0 =
        (true, { setPage ⟨[⟨true, true, true, true, false, false, some [1, 2, 3, 4], 2⟩],
            [[9, 9, 9, 9]], 4, 7, 1⟩ 0
          { (⟨true, true, true, true, false, false, some [1, 2, 3, 4], 2⟩ : PPage) with
              ram := some (storeAt ⟨[⟨true, true, true, true, false, false,
                some [1, 2, 3, 4], 2⟩], [[9, 9, 9, 9]], 4, 7, 1⟩ 0),
              in_ram := true, last_access := 7 + 1, dirty := false }
          with tick := 7 + 1 }) :=
  ⟨by decide,
    swap_in_resident_rereads_swap
      ⟨[⟨true, true, true, true, false, false, some [1, 2, 3, 4], 2⟩],
        [[9, 9, 9, 9]], 4, 7, 1⟩ 0
      ⟨true, true, true, true, false, false, some [1, 2, 3, 4], 2⟩
      (by decide) (by decide) (by decide) (by decide)⟩

/-!
### Claim C1: LRU eviction victim selection
-/

/-- Soundness and minimality of the `evict_one_page` victim scan: if the scan
over a suffix `l` of `ps` (sitting at base index `i`) returns a victim, that
victim is an eligible page of `ps` whose `last_access` is minimal among all
eligible pages, with ties broken by the lower index. -/
theorem find_victim_go_min (ps : List PPage) :
    ∀ (l : List PPage) (i : Nat) (victim : Option Nat) (best : Nat),
      (∀ k, l[k]? = ps[i + k]?) →
      (victim = none →
        ∀ j pgj, j < i → ps[j]? = some pgj → eligible pgj = true →
          best ≤ pgj.last_access) →
      (∀ w, victim = some w → w < i ∧ ∃ pgw, ps[w]? = some pgw ∧
        eligible pgw = true ∧ pgw.last_access = best ∧
        ∀ j pgj, j < i → ps[j]? = some pgj → eligible pgj = true →
          best ≤ pgj.last_access ∧ (pgj.last_access = best → w ≤ j)) →
      ∀ v, find_victim_go l i victim best = some v →
        v < i + l.length ∧ ∃ pgv, ps[v]? = some pgv ∧ eligible pgv = true ∧
          ∀ j pgj, j < i + l.length → ps[j]? = some pgj → eligible pgj = true →
            pgv.last_access ≤ pgj.last_access ∧
            (pgj.last_access = pgv.last_access → v ≤ j) := by
  intro l
  induction l with
  | nil =>
    intro i victim best hsuf hnone hsome v hrun
    simp only [find_victim_go] at hrun
    obtain ⟨hvi, pgw, hgw, helig, hlast, hmin⟩ := hsome v hrun
    refine ⟨by simpa using hvi, pgw, hgw, helig, ?_⟩
    intro j pgj hj hgj hej
    have hj' : j < i := by simpa using hj
    obtain ⟨h1, h2⟩ := hmin j pgj hj' hgj hej
    exact ⟨hlast ▸ h1, fun hh => h2 (hlast ▸ hh)⟩
  | cons pg rest ih =>
    intro i victim best hsuf hnone hsome v hrun
    have hg0 : ps[i]? = some pg := by
      have h := hsuf 0
      simpa using h.symm
    have hsuf' : ∀ k, rest[k]? = ps[i + 1 + k]? := by
      intro k
      have h := hsuf (k + 1)
      have h2 : i + (k + 1) = i + 1 + k := by omega
      rw [h2] at h
      simpa using h
    simp only [find_victim_go] at hrun
    by_cases hE : (eligible pg && decide (pg.last_access < best)) = true
    · rw [if_pos hE] at hrun
      obtain ⟨hE1, hE2⟩ := Bool.and_eq_true_iff.mp hE
      have hlt : pg.last_access < best := of_decide_eq_true hE2
      have hres := ih (i + 1) (some i) pg.last_access hsuf'
        (by intro h; cases h)
        (by
          intro w hw
          cases hw
          refine ⟨Nat.lt_succ_self i, pg, hg0, hE1, rfl, ?_⟩
          intro j pgj hj hgj hej
          have hj' : j < i ∨ j = i := by omega
          rcases hj' with hj' | hj'
          · cases hV : victim with
            | none =>
              have hb := hnone hV j pgj hj' hgj hej
              constructor
              · omega
              · intro hh
                omega
            | some w' =>
              obtain ⟨_, pgw', _, _, _, hmin'⟩ := hsome w' hV
              obtain ⟨hb, _⟩ := hmin' j pgj hj' hgj hej
              constructor
              · omega
              · intro hh
                omega
          · subst hj'
            rw [hg0] at hgj
            cases hgj
            exact ⟨Nat.le_refl _, fun _ => Nat.le_refl _⟩) v hrun
      obtain ⟨hvlt, pgv, hgv, hev, hminv⟩ := hres
      refine ⟨by simp only [List.length_cons]; omega, pgv, hgv, hev, ?_⟩
      intro j pgj hj hgj hej
      exact hminv j pgj (by simp only [List.length_cons] at hj; omega) hgj hej
    · rw [if_neg hE] at hrun
      have hE' : eligible pg = false ∨ best ≤ pg.last_access := by
        by_cases h : eligible pg = true
        · by_cases h2 : pg.last_access < best
          · exact absurd (by rw [h, decide_eq_true h2]; decide) hE
          · exact Or.inr (by omega)
        · exact Or.inl (by simpa using h)
      have hres := ih (i + 1) victim best hsuf'
        (by
          intro hV j pgj hj hgj hej
          have hj' : j < i ∨ j = i := by omega
          rcases hj' with hj' | hj'
          · exact hnone hV j pgj hj' hgj hej
          · subst hj'
            rw [hg0] at hgj
            cases hgj
            rcases hE' with h | h
            · rw [hej] at h
              cases h
            · exact h)
        (by
          intro w hw
          obtain ⟨hwi, pgw, hgw, hew, hlw, hminw⟩ := hsome w hw
          refine ⟨by omega, pgw, hgw, hew, hlw, ?_⟩
          intro j pgj hj hgj hej
          have hj' : j < i ∨ j = i := by omega
          rcases hj' with hj' | hj'
          · exact hminw j pgj hj' hgj hej
          · subst hj'
            rw [hg0] at hgj
            cases hgj
            rcases hE' with h | h
            · rw [hej] at h
              cases h
            · exact ⟨h, fun _ => by omega⟩) v hrun
      obtain ⟨hvlt, pgv, hgv, hev, hminv⟩ := hres
      refine ⟨by simp only [List.length_cons]; omega, pgv, hgv, hev, ?_⟩
      intro j pgj hj hgj hej
      exact hminv j pgj (by simp only [List.length_cons] at hj; omega) hgj hej

/-- Claim C1: when a victim is selected, it is one of exactly the eligible
pages (allocated, resident in RAM with a buffer, and `can_free_ram`); among
those it has the globally smallest `last_access`, with ties broken by the
lower page index (scan order); and `evict_one_page` then persists its buffer
to its swap region iff it is dirty and releases the RAM buffer
(`ram := none`, `in_ram := false`, `dirty` cleared). -/
theorem lru_eviction_policy (s : VMState) (v : Nat)
    (hv : find_victim s = some v) :
    ∃ pgv c, s.pages[v]? = some pgv ∧ eligible pgv = true ∧
      pgv.ram = some c ∧
      (∀ j pgj, s.pages[j]? = some pgj → eligible pgj = true →
        pgv.last_access ≤ pgj.last_access ∧
        (pgj.last_access = pgv.last_access → v ≤ j)) ∧
      evict_one_page s =
        (true, setPage (if pgv.dirty then setStore s v c else s) v
          { pgv with dirty := false, ram := none, in_ram := false }) := by
  have hv' : find_victim_go s.pages 0 none U64_MAX = some v := hv
  have hmain := find_victim_go_min s.pages s.pages 0 none U64_MAX
    (fun k => by rw [Nat.zero_add])
    (by intro _ j pgj hj _ _; omega)
    (by intro w hw; cases hw)
    v hv'
  obtain ⟨hvlt, pgv, hgv, hev, hmin⟩ := hmain
  obtain ⟨al, ir, cf, di, zf, ihp, pram, la⟩ := pgv
  have he := hev
  simp only [eligible, Bool.and_eq_true_iff] at he
  obtain ⟨⟨⟨hal, hir⟩, hso⟩, hcf⟩ := he
  subst hal
  subst hir
  subst hcf
  obtain ⟨c, hc⟩ := Option.isSome_iff_exists.mp hso
  subst hc
  refine ⟨⟨true, true, true, di, zf, ihp, some c, la⟩, c, hgv, hev, rfl, ?_, ?_⟩
  · intro j pgj hgj hej
    have hjlt : j < s.pages.length := by
      by_contra hcon
      rw [List.getElem?_eq_none (by omega)] at hgj
      cases hgj
    exact hmin j pgj (by omega) hgj hej
  · unfold evict_one_page
    rw [hv]
    dsimp only
    unfold swap_out
    rw [hgv]
    dsimp only
    rw [if_neg (by simp)]
    rw [if_neg (by simp)]
    simp only [Bool.or_false]
    cases di with
    | true => simp
    | false => simp

/-- A concrete three-page state for the C1 witness: pages 0 and 1 are
eligible with `last_access` 5 and 3, page 2 has the smallest `last_access`
but is pinned (`can_free_ram = false`), so the victim is page 1. -/
def lruW : VMState :=
  ⟨[⟨true, true, true, false, false, false, some [1, 2, 3, 4], 5⟩,
    ⟨true, true, true, true, false, false, some [5, 6, 7, 8], 3⟩,
    ⟨true, true, false, false, false, false, some [9, 9, 9, 9], 1⟩],
   [[0, 0, 0, 0], [0, 0, 0, 0], [0, 0, 0, 0]], 4, 10, 3⟩

/-- Witness for the C1 theorem: on `lruW` the victim is page 1 (the pinned
page 2 is skipped despite its smaller `last_access`). -/
theorem lru_eviction_policy_witness :
    find_victim lruW = some 1 ∧
      ∃ pgv c, lruW.pages[1]? = some pgv ∧ eligible pgv = true ∧
        pgv.ram = some c ∧
        (∀ j pgj, lruW.pages[j]? = some pgj → eligible pgj = true →
          pgv.last_access ≤ pgj.last_access ∧
          (pgj.last_access = pgv.last_access → 1 ≤ j)) ∧
        evict_one_page lruW =
          (true, setPage (if pgv.dirty then setStore lruW 1 c else lruW) 1
            { pgv with dirty := false, ram := none, in_ram := false }) :=
  ⟨by decide, lru_eviction_policy lruW 1 (by decide)⟩

/-!
### Claim C2: persistence round trip
-/

/-- Replacing a page descriptor changes the held-buffer count by the
difference of the two descriptors' buffer indicators. -/
theorem countSome_set (l : List PPage) :
    ∀ (i : Nat) (pg pg' : PPage), l[i]? = some pg →
      ((l.set i pg').filter (fun q => q.ram.isSome)).length +
          (if pg.ram.isSome then 1 else 0) =
        (l.filter (fun q => q.ram.isSome)).length +
          (if pg'.ram.isSome then 1 else 0) := by
  induction l with
  | nil =>
    intro i pg pg' hg
    simp at hg
  | cons hd tl ih =>
    intro i pg pg' hg
    cases i with
    | zero =>
      simp only [List.getElem?_cons_zero] at hg
      cases hg
      simp only [List.set_cons_zero, List.filter_cons]
      by_cases h1 : hd.ram.isSome = true <;> by_cases h2 : pg'.ram.isSome = true <;>
        simp [h1, h2] <;> omega
    | succ k =>
      simp only [List.getElem?_cons_succ] at hg
      have hrec := ih k pg pg' hg
      simp only [List.set_cons_succ, List.filter_cons]
      by_cases h1 : hd.ram.isSome = true <;> simp [h1] <;> omega

/-- `get_ptr_internal` on an allocated resident page: no swap-in happens;
only the page's `last_access`/`dirty` and the global tick change. -/
theorem get_ptr_resident (s : VMState) (idx off : Nat) (mark : Bool) (pg : PPage)
    (hg : s.pages[idx]? = some pg) (halloc : pg.allocated = true)
    (hres : pg.in_ram = true) (hoff : off < s.ps) :
    get_ptr_internal s idx off mark =
      (true, { setPage s idx
        { pg with last_access := s.tick + 1,
                  dirty := (if mark then true else pg.dirty) }
        with tick := s.tick + 1 }) := by
  unfold get_ptr_internal
  rw [hg]
  dsimp only
  rw [if_neg (by simp [halloc]), if_neg (by simp [hres])]
  dsimp only
  rw [if_neg (by omega), hg]

/-- `write_bytes` on an allocated resident page with buffer contents `c`. -/
theorem write_bytes_resident (s : VMState) (idx off : Nat) (data : List Nat)
    (pg : PPage) (c : List Nat)
    (hg : s.pages[idx]? = some pg) (halloc : pg.allocated = true)
    (hres : pg.in_ram = true) (hram : pg.ram = some c)
    (hoff : off < s.ps) (hidx : idx < s.pages.length) :
    write_bytes s idx off data =
      (true, ⟨s.pages.set idx
          { pg with ram := some (listOverwrite c off data),
                    last_access := s.tick + 1, dirty := true },
        s.store, s.ps, s.tick + 1, s.cap⟩) := by
  unfold write_bytes
  rw [get_ptr_resident s idx off true pg hg halloc hres hoff]
  dsimp only [setPage]
  rw [if_pos rfl]
  rw [show (s.pages.set idx
      { pg with last_access := s.tick + 1, dirty := true })[idx]? =
    some { pg with last_access := s.tick + 1, dirty := true } from
    List.getElem?_set_eq (by simpa using hidx)]
  dsimp only
  rw [hram]
  dsimp only [setPage]
  rw [List.set_set]

/-- `swap_out` (non-forced) of an allocated, resident, dirty page that may
free RAM: the buffer is written to the page's swap region and released. -/
theorem swap_out_dirty_release (s : VMState) (idx : Nat) (pg : PPage) (c : List Nat)
    (hg : s.pages[idx]? = some pg) (halloc : pg.allocated = true)
    (hres : pg.in_ram = true) (hram : pg.ram = some c)
    (hdirty : pg.dirty = true) (hcfr : pg.can_free_ram = true) :
    swap_out s idx false =
      (true, ⟨s.pages.set idx { pg with dirty := false, ram := none, in_ram := false },
        s.store.set idx c, s.ps, s.tick, s.cap⟩) := by
  obtain ⟨al, ir, cf, di, zf, ihp, pram, la⟩ := pg
  simp only at halloc hres hram hdirty hcfr
  subst halloc
  subst hres
  subst hdirty
  subst hcfr
  subst hram
  unfold swap_out
  rw [hg]
  dsimp only
  rw [if_neg (by simp)]
  rw [if_neg (by simp)]
  simp [setPage, setStore]

/-- `swap_in` of an allocated non-resident page when `malloc` succeeds:
a fresh buffer is acquired without any eviction and filled from the page's
swap region. -/
theorem swap_in_nonresident (s : VMState) (idx : Nat) (pg : PPage)
    (hg : s.pages[idx]? = some pg) (halloc : pg.allocated = true)
    (hnres : pg.in_ram = false) (hml : mallocOk s = true) :
    swap_in s idx =
      (true, { setPage s idx
        { pg with ram := some (storeAt s idx), in_ram := true,
                  last_access := s.tick + 1, dirty := false }
        with tick := s.tick + 1 }) := by
  have hidx : idx < s.pages.length := by
    by_contra hcon
    rw [List.getElem?_eq_none (by omega)] at hg
    cases hg
  unfold swap_in
  rw [hg]
  dsimp only
  rw [if_neg (by simp [halloc]), if_pos (by simp [hnres])]
  have halo : alloc_ram_buffer_with_eviction s = (some (List.replicate s.ps 0), s) := by
    unfold alloc_ram_buffer_with_eviction
    cases hL : s.pages.length with
    | zero => omega
    | succ n =>
      unfold allocRamGo
      rw [if_pos hml]
  rw [halo]
  dsimp only
  rw [hg]

/-- `read_bytes` on an allocated resident page returns the requested slice
of the page's RAM buffer. -/
theorem read_bytes_resident (s : VMState) (idx off len : Nat)
    (pg : PPage) (c : List Nat)
    (hg : s.pages[idx]? = some pg) (halloc : pg.allocated = true)
    (hres : pg.in_ram = true) (hram : pg.ram = some c)
    (hoff : off < s.ps) (hidx : idx < s.pages.length) :
    (read_bytes s idx off len).1 = some ((c.drop off).take len) := by
  unfold read_bytes
  rw [get_ptr_resident s idx off false pg hg halloc hres hoff]
  dsimp only [setPage]
  rw [show (s.pages.set idx
      { pg with last_access := s.tick + 1, dirty := (if false then true else pg.dirty) })[idx]? =
    some { pg with last_access := s.tick + 1, dirty := (if false then true else pg.dirty) } from
    List.getElem?_set_eq (by simpa using hidx)]
  dsimp only
  rw [hram]

/-- The written slice reads back exactly. -/
theorem listOverwrite_slice (c d : List Nat) (off : Nat)
    (h : off + d.length ≤ c.length) :
    ((listOverwrite c off d).drop off).take d.length = d := by
  unfold listOverwrite
  have h1 : (c.take off).length = off := by
    rw [List.length_take]
    omega
  have h2 := List.drop_left (c.take off) (d ++ c.drop (off + d.length))
  rw [h1] at h2
  rw [List.append_assoc, h2, List.take_left]

/-- Claim C2: persistence round trip.  Writing `data` at offset `off` of an
allocated, resident, evictable page through the write accessor marks it
dirty; evicting it (`swap_out`, which persists the buffer and releases it)
and swapping it back in (with `malloc` able to serve the reload) reads back
exactly `data`. -/
theorem persistence_round_trip (s : VMState) (p off : Nat) (data : List Nat)
    (pg : PPage) (c : List Nat)
    (hg : s.pages[p]? = some pg) (halloc : pg.allocated = true)
    (hres : pg.in_ram = true) (hram : pg.ram = some c)
    (hcfr : pg.can_free_ram = true)
    (hclen : c.length = s.ps)
    (hstore : s.store.length = s.pages.length)
    (hoff : off + data.length ≤ s.ps) (hpos : 0 < data.length)
    (hcap : buffersHeld s ≤ s.cap) :
    (read_bytes (swap_in (swap_out (write_bytes s p off data).2 p false).2 p).2
        p off data.length).1 = some data := by
  obtain ⟨pgs, st, psz, tk, cp⟩ := s
  obtain ⟨al, ir, cf, di, zf, ihp, pram, la⟩ := pg
  unfold buffersHeld at hcap
  dsimp only at hg halloc hres hram hcfr hclen hstore hoff hcap
  subst halloc
  subst hres
  subst hcfr
  subst hram
  have hplt : p < pgs.length := by
    by_contra hcon
    rw [List.getElem?_eq_none (by omega)] at hg
    cases hg
  have hofflt : off < psz := by omega
  rw [write_bytes_resident ⟨pgs, st, psz, tk, cp⟩ p off data
      ⟨true, true, true, di, zf, ihp, some c, la⟩ c hg rfl rfl rfl hofflt hplt]
  dsimp only
  rw [swap_out_dirty_release ⟨pgs.set p ⟨true, true, true, true, zf, ihp,
        some (listOverwrite c off data), tk + 1⟩, st, psz, tk + 1, cp⟩ p
      ⟨true, true, true, true, zf, ihp, some (listOverwrite c off data), tk + 1⟩
      (listOverwrite c off data)
      (List.getElem?_set_eq (by simpa using hplt)) rfl rfl rfl rfl rfl]
  dsimp only
  rw [List.set_set]
  have hcount := countSome_set pgs p ⟨true, true, true, di, zf, ihp, some c, la⟩
      ⟨true, false, true, false, zf, ihp, none, tk + 1⟩ hg
  simp at hcount
  have hml : mallocOk ⟨pgs.set p ⟨true, false, true, false, zf, ihp, none, tk + 1⟩,
      st.set p (listOverwrite c off data), psz, tk + 1, cp⟩ = true := by
    unfold mallocOk buffersHeld
    dsimp only
    refine decide_eq_true ?_
    omega
  rw [swap_in_nonresident ⟨pgs.set p ⟨true, false, true, false, zf, ihp, none, tk + 1⟩,
      st.set p (listOverwrite c off data), psz, tk + 1, cp⟩ p
      ⟨true, false, true, false, zf, ihp, none, tk + 1⟩
      (List.getElem?_set_eq (by simpa using hplt)) rfl rfl hml]
  dsimp only [setPage]
  rw [List.set_set]
  have hsa : storeAt ⟨pgs.set p ⟨true, false, true, false, zf, ihp, none, tk + 1⟩,
      st.set p (listOverwrite c off data), psz, tk + 1, cp⟩ p =
      listOverwrite c off data := by
    unfold storeAt
    dsimp only
    rw [List.getD_eq_getElem?_getD, List.getElem?_set_eq (by omega)]
    rfl
  rw [hsa]
  rw [read_bytes_resident ⟨pgs.set p ⟨true, true, true, false, zf, ihp,
        some (listOverwrite c off data), tk + 1 + 1⟩,
      st.set p (listOverwrite c off data), psz, tk + 1 + 1, cp⟩ p off data.length
      ⟨true, true, true, false, zf, ihp, some (listOverwrite c off data), tk + 1 + 1⟩
      (listOverwrite c off data)
      (List.getElem?_set_eq (by simpa using hplt)) rfl rfl rfl hofflt
      (by simpa using hplt)]
  rw [listOverwrite_slice c data off (by omega)]

/-- Single-page state for the C2 witness. -/
def c2W : VMState :=
  ⟨[⟨true, true, true, false, false, false, some [1, 2, 3, 4], 0⟩],
    [[0, 0, 0, 0]], 4, 0, 1⟩

/-- The page descriptor of `c2W`. -/
def c2Pg : PPage := ⟨true, true, true, false, false, false, some [1, 2, 3, 4], 0⟩

/-- Witness for the C2 theorem: write `[7,8]` at offset 1, evict, reload,
read back `[7,8]`. -/
theorem persistence_round_trip_witness :
    (c2W.pages[0]? = some c2Pg ∧ c2Pg.allocated = true ∧ c2Pg.in_ram = true ∧
      c2Pg.ram = some [1, 2, 3, 4] ∧ c2Pg.can_free_ram = true ∧
      ([1, 2, 3, 4] : List Nat).length = c2W.ps ∧
      c2W.store.length = c2W.pages.length ∧
      1 + ([7, 8] : List Nat).length ≤ c2W.ps ∧ 0 < ([7, 8] : List Nat).length ∧
      buffersHeld c2W ≤ c2W.cap) ∧
    (read_bytes (swap_in (swap_out (write_bytes c2W 0 1 [7, 8]).2 0 false).2 0).2
        0 1 ([7, 8] : List Nat).length).1 = some [7, 8] :=
  ⟨by decide,
    persistence_round_trip c2W 0 1 [7, 8] c2Pg [1, 2, 3, 4]
      (by decide) (by decide) (by decide) (by decide) (by decide) (by decide)
      (by decide) (by decide) (by decide) (by decide)⟩

/-!
### Claim C9: pinned pages are never evicted
-/

/-- Page `p` is allocated, pinned (`can_free_ram = false`) and resident in
RAM (with a live buffer). -/
def PinnedResident (s : VMState) (p : Nat) : Prop :=
  ∃ pg, s.pages[p]? = some pg ∧ pg.allocated = true ∧ pg.can_free_ram = false ∧
    pg.in_ram = true ∧ pg.ram.isSome = true

theorem lt_length_of_getElem?_eq_some {α : Type} {l : List α} {i : Nat} {a : α}
    (h : l[i]? = some a) : i < l.length := by
  by_contra hcon
  rw [List.getElem?_eq_none (by omega)] at h
  cases h

theorem findIdx?_prop {α : Type} {q : α → Bool} {l : List α} {i : Nat}
    (h : List.findIdx? q l = some i) : ∃ a, l[i]? = some a ∧ q a = true := by
  obtain ⟨hlt, hp, _⟩ := List.findIdx?_eq_some_iff_getElem.mp h
  exact ⟨l.get ⟨i, hlt⟩, by rw [List.getElem?_eq_getElem hlt]; rfl, hp⟩

/-- The victim scan never selects a pinned page. -/
theorem find_victim_not_pinned (s : VMState) (p : Nat) (pg : PPage)
    (hg : s.pages[p]? = some pg) (hpin : pg.can_free_ram = false) :
    find_victim s ≠ some p := by
  intro hv
  have hv' : find_victim_go s.pages 0 none U64_MAX = some p := hv
  obtain ⟨_, pgv, hgv, hev, _⟩ := find_victim_go_min s.pages s.pages 0 none U64_MAX
    (fun k => by rw [Nat.zero_add]) (by intro _ j pgj hj _ _; omega)
    (by intro w hw; cases hw) p hv'
  rw [hg] at hgv
  cases hgv
  simp only [eligible, Bool.and_eq_true_iff] at hev
  rw [hpin] at hev
  cases hev.2

/-- `swap_out` at `idx` does not touch any other page descriptor. -/
theorem swap_out_pages_other (s : VMState) (idx : Nat) (force : Bool) (q : Nat)
    (hq : q ≠ idx) : (swap_out s idx force).2.pages[q]? = s.pages[q]? := by
  unfold swap_out
  cases hG : s.pages[idx]? with
  | none => rfl
  | some page =>
    dsimp only
    split
    · rfl
    · cases hR : page.ram with
      | none => rfl
      | some c =>
        dsimp only
        split
        · rfl
        · split <;> split <;>
            (dsimp only [setPage, setStore]
             rw [List.getElem?_set_ne (Ne.symm hq)])

theorem swap_out_pinned (s : VMState) (idx : Nat) (force : Bool) (p : Nat)
    (h : PinnedResident s p) : PinnedResident (swap_out s idx force).2 p := by
  obtain ⟨pg, hg, hal, hpin, hir, hso⟩ := h
  by_cases hip : idx = p
  · subst hip
    obtain ⟨c, hc⟩ := Option.isSome_iff_exists.mp hso
    unfold swap_out
    rw [hg]
    dsimp only
    rw [if_neg (by simp [hal]), hc]
    dsimp only
    rw [if_neg (by simp [hir])]
    cases hDF : (pg.dirty || force) with
    | true =>
      simp only [hpin, setPage, setStore, if_pos, if_neg, Bool.false_eq_true,
        if_false, if_true, eq_self_iff_true]
      refine ⟨{ pg with dirty := false }, ?_, hal, hpin, hir, hso⟩
      dsimp only
      rw [List.getElem?_set_eq (lt_length_of_getElem?_eq_some hg), hpin, hc]
    | false =>
      simp only [hpin, setPage, setStore, Bool.false_eq_true, if_false, if_true,
        eq_self_iff_true]
      refine ⟨pg, ?_, hal, hpin, hir, hso⟩
      dsimp only
      rw [List.getElem?_set_eq (lt_length_of_getElem?_eq_some hg)]
  · refine ⟨pg, ?_, hal, hpin, hir, hso⟩
    rw [swap_out_pages_other s idx force p (fun hh => hip hh.symm)]
    exact hg

theorem evict_pinned (s : VMState) (p : Nat) (h : PinnedResident s p) :
    PinnedResident (evict_one_page s).2 p := by
  unfold evict_one_page
  cases hv : find_victim s with
  | none => exact h
  | some v => exact swap_out_pinned s v false p h

theorem allocRamGo_pinned : ∀ (fuel : Nat) (s : VMState) (p : Nat),
    PinnedResident s p → PinnedResident (allocRamGo fuel s).2 p := by
  intro fuel
  induction fuel with
  | zero => intro s p h; exact h
  | succ n ih =>
    intro s p h
    unfold allocRamGo
    split
    · exact h
    · have hep := evict_pinned s p h
      cases hE : evict_one_page s with
      | mk ok s1 =>
        rw [hE] at hep
        cases ok
        · exact hep
        · exact ih s1 p hep

theorem alloc_ram_pinned (s : VMState) (p : Nat) (h : PinnedResident s p) :
    PinnedResident (alloc_ram_buffer_with_eviction s).2 p :=
  allocRamGo_pinned s.pages.length s p h

theorem swap_in_pinned (s : VMState) (idx p : Nat) (h : PinnedResident s p) :
    PinnedResident (swap_in s idx).2 p := by
  unfold swap_in
  cases hG : s.pages[idx]? with
  | none => exact h
  | some page =>
    dsimp only
    split
    · exact h
    · by_cases hip : idx = p
      · -- the pinned page itself: it is resident, so no acquisition happens
        subst hip
        obtain ⟨pg, hgp, hal, hpin, hir, hso⟩ := h
        rw [hG] at hgp
        cases hgp
        obtain ⟨c, hc⟩ := Option.isSome_iff_exists.mp hso
        rw [if_neg (by simp [hir, hc]), hc]
        dsimp only
        rw [hG]
        refine
          ⟨{ page with
              ram := some (storeAt s idx), in_ram := true,
              last_access := s.tick + 1, dirty := false },
            ?_, hal, hpin, rfl, rfl⟩
        dsimp only [setPage]
        rw [List.getElem?_set_eq (lt_length_of_getElem?_eq_some hG)]
      · -- another page: acquisition (if any) and the final update keep `p`
        have haux : ∀ s1 : VMState, PinnedResident s1 p →
            PinnedResident (match s1.pages[idx]? with
              | none => (false, s1)
              | some pg1 =>
                (true, { setPage s1 idx
                  { pg1 with ram := some (storeAt s1 idx), in_ram := true,
                             last_access := s1.tick + 1, dirty := false }
                  with tick := s1.tick + 1 })).2 p := by
          intro s1 h1
          cases hG1 : s1.pages[idx]? with
          | none => exact h1
          | some pg1 =>
            obtain ⟨pg, hgp, hal, hpin, hir, hso⟩ := h1
            refine ⟨pg, ?_, hal, hpin, hir, hso⟩
            dsimp only [setPage]
            rw [List.getElem?_set_ne hip]
            exact hgp
        by_cases hcond : (decide (page.in_ram = false) || page.ram.isNone) = true
        · -- non-resident: buffer acquisition with eviction fallback
          rw [if_pos hcond]
          have har := alloc_ram_pinned s p h
          cases hA : alloc_ram_buffer_with_eviction s with
          | mk ob s1 =>
            rw [hA] at har
            cases ob with
            | none =>
              dsimp only
              cases hG1 : s1.pages[idx]? with
              | none => exact har
              | some pg1 =>
                obtain ⟨pg, hgp, hal, hpin, hir, hso⟩ := har
                refine ⟨pg, ?_, hal, hpin, hir, hso⟩
                dsimp only [setPage]
                rw [List.getElem?_set_ne hip]
                exact hgp
            | some buf => exact haux s1 har
        · rw [if_neg hcond]
          cases hR : page.ram with
          | none => simp [hR] at hcond
          | some c => exact haux s h

theorem get_ptr_pinned (s : VMState) (idx off : Nat) (mark : Bool) (p : Nat)
    (h : PinnedResident s p) : PinnedResident (get_ptr_internal s idx off mark).2 p := by
  unfold get_ptr_internal
  cases hG : s.pages[idx]? with
  | none => exact h
  | some page =>
    dsimp only
    split
    · exact h
    · have hsw : PinnedResident
          (if page.in_ram = false then swap_in s idx else (true, s)).2 p := by
        split
        · exact swap_in_pinned s idx p h
        · exact h
      cases hM : (if page.in_ram = false then swap_in s idx else (true, s)) with
      | mk ok s1 =>
        rw [hM] at hsw
        cases ok
        · exact hsw
        · dsimp only
          split
          · exact hsw
          · cases hG1 : s1.pages[idx]? with
            | none => exact hsw
            | some pg1 =>
              obtain ⟨pg, hgp, hal, hpin, hir, hso⟩ := hsw
              by_cases hip : idx = p
              · subst hip
                rw [hG1] at hgp
                cases hgp
                refine
                  ⟨{ pg1 with
                      last_access := s1.tick + 1,
                      dirty := (if mark then true else pg1.dirty) },
                    ?_, hal, hpin, hir, hso⟩
                dsimp only [setPage]
                rw [List.getElem?_set_eq (lt_length_of_getElem?_eq_some hG1)]
              · refine ⟨pg, ?_, hal, hpin, hir, hso⟩
                dsimp only [setPage]
                rw [List.getElem?_set_ne hip]
                exact hgp

theorem write_bytes_pinned (s : VMState) (idx off : Nat) (data : List Nat) (p : Nat)
    (h : PinnedResident s p) : PinnedResident (write_bytes s idx off data).2 p := by
  unfold write_bytes
  have hgp0 := get_ptr_pinned s idx off true p h
  cases hM : get_ptr_internal s idx off true with
  | mk ok s1 =>
    rw [hM] at hgp0
    cases ok
    · exact hgp0
    · dsimp only
      cases hG1 : s1.pages[idx]? with
      | none => exact hgp0
      | some pg1 =>
        dsimp only
        cases hR : pg1.ram with
        | none => exact hgp0
        | some c =>
          obtain ⟨pg, hgp, hal, hpin, hir, hso⟩ := hgp0
          by_cases hip : idx = p
          · subst hip
            rw [hG1] at hgp
            cases hgp
            refine
              ⟨{ pg1 with ram := some (listOverwrite c off data) },
                ?_, hal, hpin, hir, rfl⟩
            dsimp only [setPage]
            rw [List.getElem?_set_eq (lt_length_of_getElem?_eq_some hG1)]
          · refine ⟨pg, ?_, hal, hpin, hir, hso⟩
            dsimp only [setPage]
            rw [List.getElem?_set_ne hip]
            exact hgp

theorem read_bytes_pinned (s : VMState) (idx off len p : Nat)
    (h : PinnedResident s p) : PinnedResident (read_bytes s idx off len).2 p := by
  unfold read_bytes
  have hgp0 := get_ptr_pinned s idx off false p h
  cases hM : get_ptr_internal s idx off false with
  | mk ok s1 =>
    rw [hM] at hgp0
    cases ok
    · exact hgp0
    · dsimp only
      cases hG1 : s1.pages[idx]? with
      | none => exact hgp0
      | some pg1 =>
        dsimp only
        cases hR : pg1.ram with
        | none => exact hgp0
        | some c => exact hgp0

theorem alloc_page_ex_pinned (s : VMState) (opts : AllocOptions) (p : Nat)
    (h : PinnedResident s p) : PinnedResident (alloc_page_ex s opts).2 p := by
  unfold alloc_page_ex
  cases hF : s.pages.findIdx? (fun pg => !pg.allocated) with
  | none => exact h
  | some i =>
    have hip : i ≠ p := by
      obtain ⟨a, hga, hpa⟩ := findIdx?_prop hF
      intro hh
      subst hh
      obtain ⟨pg, hgp, hal, _, _, _⟩ := h
      rw [hga] at hgp
      cases hgp
      rw [hal] at hpa
      cases hpa
    dsimp only
    have har := alloc_ram_pinned s p h
    cases hA : alloc_ram_buffer_with_eviction s with
    | mk ob s1 =>
      rw [hA] at har
      obtain ⟨pg, hgp, hal, hpin, hir, hso⟩ := har
      cases ob with
      | none =>
        dsimp only
        cases hG1 : s1.pages[i]? with
        | none => exact ⟨pg, hgp, hal, hpin, hir, hso⟩
        | some pg1 =>
          refine ⟨pg, ?_, hal, hpin, hir, hso⟩
          dsimp only [setPage]
          rw [List.getElem?_set_ne hip]
          exact hgp
      | some buf =>
        dsimp only
        cases hG1 : s1.pages[i]? with
        | none => exact ⟨pg, hgp, hal, hpin, hir, hso⟩
        | some pg1 =>
          refine ⟨pg, ?_, hal, hpin, hir, hso⟩
          dsimp only [setPage]
          rw [List.getElem?_set_ne hip]
          exact hgp

theorem alloc_page_at_pinned (s : VMState) (idx : Nat) (opts : AllocOptions) (p : Nat)
    (h : PinnedResident s p) : PinnedResident (alloc_page_at s idx opts).2 p := by
  unfold alloc_page_at
  cases hG : s.pages[idx]? with
  | none => exact h
  | some pg0 =>
    dsimp only
    split
    · split
      · exact swap_in_pinned s idx p h
      · exact h
    · rename_i hna
      have hip : idx ≠ p := by
        intro hh
        subst hh
        obtain ⟨pg, hgp, hal, _, _, _⟩ := h
        rw [hG] at hgp
        cases hgp
        exact hna hal
      have har := alloc_ram_pinned s p h
      cases hA : alloc_ram_buffer_with_eviction s with
      | mk ob s1 =>
        rw [hA] at har
        obtain ⟨pg, hgp, hal, hpin, hir, hso⟩ := har
        cases ob with
        | none =>
          dsimp only
          cases hG1 : s1.pages[idx]? with
          | none => exact ⟨pg, hgp, hal, hpin, hir, hso⟩
          | some pg1 =>
            refine ⟨pg, ?_, hal, hpin, hir, hso⟩
            dsimp only [setPage]
            rw [List.getElem?_set_ne hip]
            exact hgp
        | some buf =>
          dsimp only
          cases hG1 : s1.pages[idx]? with
          | none => exact ⟨pg, hgp, hal, hpin, hir, hso⟩
          | some pg1 =>
            refine ⟨pg, ?_, hal, hpin, hir, hso⟩
            dsimp only [setPage]
            rw [List.getElem?_set_ne hip]
            exact hgp

theorem free_page_pinned (s : VMState) (idx : Nat) (wipe : Bool) (p : Nat)
    (hip : idx ≠ p) (h : PinnedResident s p) :
    PinnedResident (free_page s idx wipe).2 p := by
  unfold free_page
  cases hG : s.pages[idx]? with
  | none => exact h
  | some page =>
    dsimp only
    split
    · exact h
    · have h1 : PinnedResident
          (if (page.in_ram && page.ram.isSome && !wipe) = true then
            (swap_out s idx false).2 else s) p := by
        split
        · exact swap_out_pinned s idx false p h
        · exact h
      have h2 : PinnedResident
          (if wipe = true then
            setStore (if (page.in_ram && page.ram.isSome && !wipe) = true then
              (swap_out s idx false).2 else s) idx
              (List.replicate (if (page.in_ram && page.ram.isSome && !wipe) = true then
                (swap_out s idx false).2 else s).ps 0)
           else (if (page.in_ram && page.ram.isSome && !wipe) = true then
              (swap_out s idx false).2 else s)) p := by
        split
        · exact h1
        · exact h1
      split
      · exact h2
      · rename_i pg2 hG2
        obtain ⟨pg, hgp, hal, hpin, hir, hso⟩ := h2
        refine ⟨pg, ?_, hal, hpin, hir, hso⟩
        dsimp only [setPage]
        rw [List.getElem?_set_ne hip]
        exact hgp

theorem mark_dirty_pinned (s : VMState) (idx p : Nat) (h : PinnedResident s p) :
    PinnedResident (mark_dirty s idx) p := by
  unfold mark_dirty
  cases hG : s.pages[idx]? with
  | none => exact h
  | some page =>
    dsimp only
    split
    · obtain ⟨pg, hgp, hal, hpin, hir, hso⟩ := h
      by_cases hip : idx = p
      · subst hip
        rw [hG] at hgp
        cases hgp
        refine ⟨{ page with dirty := true }, ?_, hal, hpin, hir, hso⟩
        dsimp only [setPage]
        rw [List.getElem?_set_eq (lt_length_of_getElem?_eq_some hG)]
      · refine ⟨pg, ?_, hal, hpin, hir, hso⟩
        dsimp only [setPage]
        rw [List.getElem?_set_ne hip]
        exact hgp
    · exact h

theorem mark_clean_pinned (s : VMState) (idx p : Nat) (h : PinnedResident s p) :
    PinnedResident (mark_clean s idx) p := by
  unfold mark_clean
  cases hG : s.pages[idx]? with
  | none => exact h
  | some page =>
    dsimp only
    split
    · obtain ⟨pg, hgp, hal, hpin, hir, hso⟩ := h
      by_cases hip : idx = p
      · subst hip
        rw [hG] at hgp
        cases hgp
        refine ⟨{ page with dirty := false }, ?_, hal, hpin, hir, hso⟩
        dsimp only [setPage]
        rw [List.getElem?_set_eq (lt_length_of_getElem?_eq_some hG)]
      · refine ⟨pg, ?_, hal, hpin, hir, hso⟩
        dsimp only [setPage]
        rw [List.getElem?_set_ne hip]
        exact hgp
    · exact h

theorem flushAllGo_pinned : ∀ (fuel i : Nat) (s : VMState) (p : Nat),
    PinnedResident s p → PinnedResident (flushAllGo fuel i s) p := by
  intro fuel
  induction fuel with
  | zero => intro i s p h; exact h
  | succ n ih =>
    intro i s p h
    unfold flushAllGo
    cases hG : s.pages[i]? with
    | none => exact h
    | some pg =>
      dsimp only
      refine ih (i + 1) _ p ?_
      split
      · exact swap_out_pinned s i true p h
      · exact h

/-- Claim C9: a page allocated with `can_free_ram = false` is pinned: the
victim scan never selects it, and every paging operation other than freeing
that very page or shutting the manager down leaves it allocated, pinned and
resident in RAM. -/
theorem pinned_page_never_evicted (s : VMState) (op : POp) (p : Nat)
    (h : PinnedResident s p)
    (hnotfree : ∀ wipe, op ≠ POp.freeOp p wipe)
    (hnotend : op ≠ POp.endOp) :
    find_victim s ≠ some p ∧ PinnedResident (papply s op) p := by
  constructor
  · obtain ⟨pg, hgp, _, hpin, _, _⟩ := h
    exact find_victim_not_pinned s p pg hgp hpin
  · cases op with
    | swapOut idx force => exact swap_out_pinned s idx force p h
    | swapIn idx => exact swap_in_pinned s idx p h
    | evictOne => exact evict_pinned s p h
    | flushOne idx => exact swap_out_pinned s idx true p h
    | flushAllOp => exact flushAllGo_pinned s.pages.length 0 s p h
    | freeOp idx wipe =>
      have hip : idx ≠ p := fun hh => hnotfree wipe (by rw [hh])
      exact free_page_pinned s idx wipe p hip h
    | allocEx opts => exact alloc_page_ex_pinned s opts p h
    | allocAt idx opts => exact alloc_page_at_pinned s idx opts p h
    | getPtr idx off mark => exact get_ptr_pinned s idx off mark p h
    | writeOp idx off data => exact write_bytes_pinned s idx off data p h
    | readOp idx off len => exact read_bytes_pinned s idx off len p h
    | markD idx => exact mark_dirty_pinned s idx p h
    | markC idx => exact mark_clean_pinned s idx p h
    | endOp => exact absurd rfl hnotend

/-- Single pinned resident page for the C9 witness. -/
def pinW : VMState :=
  ⟨[⟨true, true, false, true, false, false, some [1, 2, 3, 4], 0⟩],
    [[0, 0, 0, 0]], 4, 0, 1⟩

/-- Witness for the C9 theorem: an eviction pass on `pinW` neither selects
page 0 as victim nor disturbs its residency. -/
theorem pinned_page_never_evicted_witness :
    PinnedResident pinW 0 ∧ (∀ wipe, POp.evictOne ≠ POp.freeOp 0 wipe) ∧
      POp.evictOne ≠ POp.endOp ∧
      (find_victim pinW ≠ some 0 ∧ PinnedResident (papply pinW POp.evictOne) 0) :=
  ⟨⟨⟨true, true, false, true, false, false, some [1, 2, 3, 4], 0⟩,
      rfl, rfl, rfl, rfl, rfl⟩,
    (fun _ hh => by cases hh),
    (fun hh => by cases hh),
    pinned_page_never_evicted pinW POp.evictOne 0
      ⟨⟨true, true, false, true, false, false, some [1, 2, 3, 4], 0⟩,
        rfl, rfl, rfl, rfl, rfl⟩
      (fun _ hh => by cases hh) (fun hh => by cases hh)⟩

/-!
### Claim C7: VMPtr pointer arithmetic

`VMPtr<T>` stores a page index (with `-1` as the lazy null sentinel) and a
byte offset.  `operator+` (src/containers.h lines 1270-1281) throws on an
invalid pointer, then advances by `n * sizeof(T)` bytes using C truncated
division with an explicit negative-remainder correction; `operator-` is
`*this + (-n)` (lines 1288-1290).  The throw is modelled as `none`.
-/

/-- A `VMPtr` virtual position: page index and offset. -/
structure VMPtrR where
  page : Int
  offset : Nat
deriving DecidableEq

/-- `VMPtr::valid()` (lines 1104-1109) against manager parameters `pc`
(page count), `ps` (page size) and element size `s`:  the `-1` sentinel is
valid, otherwise the index must be in range and the element must fit. -/
def ptrValid (pc ps s : Nat) (p : VMPtrR) : Prop :=
  p.page = -1 ∨ (0 ≤ p.page ∧ p.page < (pc : Int) ∧ p.offset + s ≤ ps)

instance instDecPtrValid (pc ps s : Nat) (p : VMPtrR) :
    Decidable (ptrValid pc ps s p) := by
  unfold ptrValid
  infer_instance

/-- `VMPtr::operator+` (lines 1270-1281): C truncated division (`Int.tdiv`,
`Int.tmod` are C's `/` and `%`) with the negative-remainder correction;
`none` models the `std::runtime_error` on an invalid pointer. -/
def ptrAdd (pc ps s : Nat) (p : VMPtrR) (n : Int) : Option VMPtrR :=
  if ptrValid pc ps s p then
    let total : Int := (p.offset : Int) + n * (s : Int)
    let page_delta : Int := total.tdiv (ps : Int)
    let rem : Int := total.tmod (ps : Int)
    let page_delta2 := if rem < 0 then page_delta - 1 else page_delta
    let rem2 := if rem < 0 then rem + (ps : Int) else rem
    some ⟨p.page + page_delta2, rem2.toNat⟩
  else none

/-- `VMPtr::operator-` (lines 1288-1290). -/
def ptrSub (pc ps s : Nat) (p : VMPtrR) (n : Int) : Option VMPtrR :=
  ptrAdd pc ps s p (-n)

/-- Counterexample to Claim C7 as stated for all integers `m`, `n`:
with 16 pages of 4096 bytes and 8-byte elements, `(p + 8192) + (-8192)`
throws (the intermediate pointer lands on page 16, which is out of range),
while `p + (8192 + -8192) = p`. -/
theorem vmptr_add_counterexample :
    ((ptrAdd 16 4096 8 ⟨0, 0⟩ 8192).bind (fun q => ptrAdd 16 4096 8 q (-8192))) ≠
      ptrAdd 16 4096 8 ⟨0, 0⟩ (8192 + -8192) := by
  decide

/-- The truncated division with negative-remainder correction computes
Euclidean division. -/
theorem tdivFix (a b : Int) (hb : 0 < b) :
    (if a.tmod b < 0 then a.tdiv b - 1 else a.tdiv b) = a / b ∧
    (if a.tmod b < 0 then a.tmod b + b else a.tmod b) = a % b := by
  have hlow : -b < a.tmod b := by
    rcases le_or_lt 0 a with h | h
    · have := Int.tmod_nonneg b h
      omega
    · have h1 : (0 : Int) ≤ -a := by omega
      have h2 := Int.tmod_lt_of_pos (-a) hb
      have h3 : (-a).tmod b = -(a.tmod b) := by
        rw [Int.tmod_def, Int.tmod_def, Int.neg_tdiv]
        ring
      omega
  have hhigh := Int.tmod_lt_of_pos a hb
  have heq := Int.tdiv_add_tmod a b
  by_cases hneg : a.tmod b < 0
  · simp only [if_pos hneg]
    have heq2 : a.tmod b + b + b * (a.tdiv b - 1) = a := by
      rw [Int.mul_sub, Int.mul_one]
      omega
    have h := (Int.ediv_emod_unique (a := a) hb
      (r := a.tmod b + b) (q := a.tdiv b - 1)).mpr ⟨heq2, by omega, by omega⟩
    exact ⟨h.1.symm, h.2.symm⟩
  · simp only [if_neg hneg]
    have h := (Int.ediv_emod_unique (a := a) hb
      (r := a.tmod b) (q := a.tdiv b)).mpr ⟨by omega, by omega, by omega⟩
    exact ⟨h.1.symm, h.2.symm⟩

/-- `ptrAdd` on a valid pointer is Euclidean (floor) division by the page
size. -/
theorem ptrAdd_eq_euclid (pc ps s : Nat) (p : VMPtrR) (n : Int) (hps : 0 < ps)
    (hv : ptrValid pc ps s p) :
    ptrAdd pc ps s p n =
      some ⟨p.page + ((p.offset : Int) + n * s) / (ps : Int),
            ((((p.offset : Int) + n * s) % (ps : Int)).toNat : Nat)⟩ := by
  unfold ptrAdd
  rw [if_pos hv]
  dsimp only
  have hfix := tdivFix ((p.offset : Int) + n * s) (ps : Int) (by exact_mod_cast hps)
  rw [hfix.1, hfix.2]

/-- Shifting by a multiple-free delta commutes with Euclidean div/mod. -/
theorem euclid_shift (a d b : Int) (hb : 0 < b) :
    a / b + (a % b + d) / b = (a + d) / b ∧
    (a % b + d) % b = (a + d) % b := by
  have hemod := Int.emod_def a b
  have h1 : a % b + d = (a + d) + (-(a / b)) * b := by
    rw [hemod]
    ring
  constructor
  · rw [h1, Int.add_mul_ediv_right _ _ (by omega : (b : Int) ≠ 0)]
    ring
  · rw [h1, Int.add_mul_emod_self]

/-- Claim C7 (amended): handle arithmetic over valid positions.  If the
intermediate handles are themselves valid (so no step throws), then
`(p + m) + n` equals `p + (m + n)` and `(p + n) - n` returns `p`; the
advancement is floor division by the page size, negative remainders
borrowing one page. -/
theorem vmptr_arith_assoc (pc ps s : Nat) (p q r : VMPtrR) (m n : Int)
    (hps : 0 < ps) (hoff : p.offset < ps)
    (hq : ptrAdd pc ps s p m = some q) (hqv : ptrValid pc ps s q)
    (hr : ptrAdd pc ps s p n = some r) (hrv : ptrValid pc ps s r) :
    ptrAdd pc ps s q n = ptrAdd pc ps s p (m + n) ∧
      ptrSub pc ps s r n = some p := by
  have hpsZ : (0 : Int) < (ps : Int) := by exact_mod_cast hps
  by_cases hv : ptrValid pc ps s p
  case neg =>
    unfold ptrAdd at hq
    rw [if_neg hv] at hq
    cases hq
  rw [ptrAdd_eq_euclid pc ps s p m hps hv] at hq
  rw [ptrAdd_eq_euclid pc ps s p n hps hv] at hr
  cases hq
  cases hr
  have hA := Int.emod_nonneg ((p.offset : Int) + m * s) (by omega : (ps : Int) ≠ 0)
  have hB := Int.emod_nonneg ((p.offset : Int) + n * s) (by omega : (ps : Int) ≠ 0)
  constructor
  · rw [ptrAdd_eq_euclid pc ps s _ n hps hqv, ptrAdd_eq_euclid pc ps s p (m + n) hps hv]
    dsimp only
    rw [Int.toNat_of_nonneg hA]
    have hsh := euclid_shift ((p.offset : Int) + m * s) (n * s) (ps : Int) hpsZ
    have harg : (p.offset : Int) + (m + n) * s = ((p.offset : Int) + m * s) + n * s := by
      ring
    rw [harg, ← hsh.1, ← hsh.2]
    rw [Int.add_assoc]
  · rw [ptrSub, ptrAdd_eq_euclid pc ps s _ (-n) hps hrv]
    dsimp only
    rw [Int.toNat_of_nonneg hB]
    have hsh := euclid_shift ((p.offset : Int) + n * s) (-n * s) (ps : Int) hpsZ
    have harg : ((p.offset : Int) + n * s) + -n * s = (p.offset : Int) := by
      ring
    rw [harg] at hsh
    have hoffZ : (0 : Int) ≤ (p.offset : Int) := by positivity
    have hoffLt : (p.offset : Int) < (ps : Int) := by exact_mod_cast hoff
    have hod : (p.offset : Int) / (ps : Int) = 0 := Int.ediv_eq_zero_of_lt hoffZ hoffLt
    have hom : (p.offset : Int) % (ps : Int) = (p.offset : Int) :=
      Int.emod_eq_of_lt hoffZ hoffLt
    rw [hsh.2, hom]
    have hpage : p.page + ((p.offset : Int) + n * s) / (ps : Int) +
        (((p.offset : Int) + n * s) % (ps : Int) + -n * s) / (ps : Int) = p.page := by
      have := hsh.1
      rw [hod] at this
      omega
    rw [hpage]
    simp

/-- Witness for the amended C7 theorem: 16 pages of 4096 bytes, 8-byte
elements, `p = (0, 8)`, `m = 2`, `n = 3`. -/
theorem vmptr_arith_assoc_witness :
    (0 < 4096 ∧ (⟨0, 8⟩ : VMPtrR).offset < 4096 ∧
      ptrAdd 16 4096 8 ⟨0, 8⟩ 2 = some ⟨0, 24⟩ ∧ ptrValid 16 4096 8 ⟨0, 24⟩ ∧
      ptrAdd 16 4096 8 ⟨0, 8⟩ 3 = some ⟨0, 32⟩ ∧ ptrValid 16 4096 8 ⟨0, 32⟩) ∧
    (ptrAdd 16 4096 8 ⟨0, 24⟩ 3 = ptrAdd 16 4096 8 ⟨0, 8⟩ (2 + 3) ∧
      ptrSub 16 4096 8 ⟨0, 32⟩ 3 = some ⟨0, 8⟩) :=
  ⟨by decide,
    vmptr_arith_assoc 16 4096 8 ⟨0, 8⟩ ⟨0, 24⟩ ⟨0, 32⟩ 2 3
      (by decide) (by decide) (by decide) (by decide) (by decide) (by decide)⟩

end MicroSwap
